import Mathlib

/-!
Shallow embedding of the fwdb storage core (`src/database.rs`).

Modelling conventions:
* Rust `String` keys and values become `List Nat` (their UTF-8 bytes);
  Rust's `Ord` on `String` is byte-wise lexicographic, embedded as `keyCmp`.
* The bincode encoding used by the source (`serialize`, `deserialize_from`,
  `serialized_size` with the `Infinite` limit) is embedded byte by byte:
  `u64`/`usize` are 8 little-endian bytes, strings are a `u64` length prefix
  followed by the raw bytes, `Vec` is a `u64` count followed by the elements,
  and structs are their fields in declaration order.
* Files are byte lists; the `Database` carries the filesystem as an
  association of path names to contents.  An SSTable stores only its
  filename (plus the lazily cached index), exactly as the source does; every
  flush writes the single shared path `<name>.db` through `File::create`,
  truncating the previous flush's bytes, and `SSTable::get` reads that path
  at probe time.  Opening a path absent from the filesystem fails with an
  I/O error, which `try!` propagates.
* Fallible I/O the source silently ignores is driven by explicit `Bool`
  oracles (`walOk` for the WAL `write_all`, `createOk` for `File::create`,
  `writeOk` for the `serialize_into` calls of a flush), so that the model can
  express what the code does when those operations fail.
* A Rust panic (an `unwrap` of a failed decode) is the `GetRes.panicked`
  outcome; it is not a returned error.
-/

namespace Fwdb

/-- Byte-wise lexicographic three-way comparison: the embedding of
`Ord` on Rust `String` (UTF-8 byte order), used by `BTreeMap`,
`binary_search_by` and the `>=` test in `get_offset_for`. -/
def keyCmp : List Nat → List Nat → Ordering
  | [], [] => .eq
  | [], _ :: _ => .lt
  | _ :: _, [] => .gt
  | a :: as, b :: bs =>
    if a < b then .lt else if b < a then .gt else keyCmp as bs

theorem keyCmp_refl (a : List Nat) : keyCmp a a = .eq := by
  induction a with
  | nil => rfl
  | cons x xs ih => simp [keyCmp, ih]

theorem keyCmp_eq_iff {a b : List Nat} : keyCmp a b = .eq ↔ a = b := by
  constructor
  · intro h
    induction a generalizing b with
    | nil => cases b with
      | nil => rfl
      | cons y ys => simp [keyCmp] at h
    | cons x xs ih =>
      cases b with
      | nil => simp [keyCmp] at h
      | cons y ys =>
        by_cases hxy : x < y
        · simp [keyCmp, hxy] at h
        · by_cases hyx : y < x
          · simp [keyCmp, hxy, hyx] at h
          · have hx : x = y := Nat.le_antisymm (Nat.le_of_not_lt hyx) (Nat.le_of_not_lt hxy)
            simp [keyCmp, hxy, hyx] at h
            simp [hx, ih h]
  · intro h; subst h; exact keyCmp_refl a

theorem keyCmp_swap {a b : List Nat} : keyCmp a b = .lt ↔ keyCmp b a = .gt := by
  induction a generalizing b with
  | nil => cases b with
    | nil => simp [keyCmp]
    | cons y ys => simp [keyCmp]
  | cons x xs ih =>
    cases b with
    | nil => simp [keyCmp]
    | cons y ys =>
      by_cases hxy : x < y
      · have hyx : ¬ y < x := Nat.lt_asymm hxy
        simp [keyCmp, hxy, hyx]
      · by_cases hyx : y < x
        · simp [keyCmp, hxy, hyx]
        · simp [keyCmp, hxy, hyx, ih]

theorem keyCmp_lt_trans {a b c : List Nat}
    (hab : keyCmp a b = .lt) (hbc : keyCmp b c = .lt) : keyCmp a c = .lt := by
  induction a generalizing b c with
  | nil =>
    cases c with
    | nil =>
      cases b with
      | nil => simp [keyCmp] at hab
      | cons y ys => simp [keyCmp] at hbc
    | cons z zs => simp [keyCmp]
  | cons x xs ih =>
    cases b with
    | nil => simp [keyCmp] at hab
    | cons y ys =>
      cases c with
      | nil => simp [keyCmp] at hbc
      | cons z zs =>
        by_cases hxy : x < y
        · by_cases hyz : y < z
          · simp [keyCmp, Nat.lt_trans hxy hyz]
          · by_cases hzy : z < y
            · simp [keyCmp, hyz, hzy] at hbc
            · have hyz' : y = z := Nat.le_antisymm (Nat.le_of_not_lt hzy) (Nat.le_of_not_lt hyz)
              subst hyz'
              simp [keyCmp, hxy]
        · by_cases hyx : y < x
          · simp [keyCmp, hxy, hyx] at hab
          · have hxy' : x = y := Nat.le_antisymm (Nat.le_of_not_lt hyx) (Nat.le_of_not_lt hxy)
            subst hxy'
            by_cases hyz : x < z
            · simp [keyCmp, hyz]
            · by_cases hzy : z < x
              · simp [keyCmp, hyz, hzy] at hbc
              · simp [keyCmp, hxy, hyx] at hab
                simp [keyCmp, hyz, hzy] at hbc ⊢
                exact ih hab hbc

theorem keyCmp_cases (a b : List Nat) :
    keyCmp a b = .lt ∨ keyCmp a b = .eq ∨ keyCmp a b = .gt := by
  cases h : keyCmp a b
  · exact Or.inl rfl
  · exact Or.inr (Or.inl rfl)
  · exact Or.inr (Or.inr rfl)

/-- `a ≤ b` in source terms: the comparison is not `Greater`. -/
theorem keyCmp_ne_gt_iff {a b : List Nat} :
    keyCmp a b ≠ .gt ↔ (keyCmp a b = .lt ∨ a = b) := by
  rcases keyCmp_cases a b with h | h | h
  · simp [h]
  · have hab : a = b := keyCmp_eq_iff.mp h
    subst hab
    simp [keyCmp_refl]
  · constructor
    · intro hne; exact absurd h hne
    · rintro (hlt | heq)
      · rw [hlt] at h; cases h
      · subst heq; rw [keyCmp_refl] at h; cases h

theorem keyCmp_le_trans {a b c : List Nat}
    (hab : keyCmp a b ≠ .gt) (hbc : keyCmp b c ≠ .gt) : keyCmp a c ≠ .gt := by
  rcases keyCmp_ne_gt_iff.mp hab with h1 | h1
  · rcases keyCmp_ne_gt_iff.mp hbc with h2 | h2
    · exact keyCmp_ne_gt_iff.mpr (Or.inl (keyCmp_lt_trans h1 h2))
    · subst h2; exact keyCmp_ne_gt_iff.mpr (Or.inl h1)
  · subst h1; exact hbc

theorem keyCmp_lt_of_lt_of_le {a b c : List Nat}
    (hab : keyCmp a b = .lt) (hbc : keyCmp b c ≠ .gt) : keyCmp a c = .lt := by
  rcases keyCmp_ne_gt_iff.mp hbc with h | h
  · exact keyCmp_lt_trans hab h
  · subst h; exact hab

theorem keyCmp_lt_of_le_of_lt {a b c : List Nat}
    (hab : keyCmp a b ≠ .gt) (hbc : keyCmp b c = .lt) : keyCmp a c = .lt := by
  rcases keyCmp_ne_gt_iff.mp hab with h | h
  · exact keyCmp_lt_trans h hbc
  · subst h; exact hbc

theorem keyCmp_lt_asymm {a b : List Nat}
    (h : keyCmp a b = .lt) : keyCmp b a ≠ .lt := by
  intro h'
  have := keyCmp_lt_trans h h'
  rw [keyCmp_refl] at this
  cases this

theorem keyCmp_lt_ne {a b : List Nat} (h : keyCmp a b = .lt) : a ≠ b := by
  intro he; subst he; rw [keyCmp_refl] at h; cases h

/-- `struct KVPair { k: String, v: String }` (database.rs:261). -/
structure KVPair where
  k : List Nat
  v : List Nat
deriving DecidableEq

/-- `KVPair::len`: `self.k.len() + self.v.len()` (database.rs:274). -/
def KVPair.len (p : KVPair) : Nat := p.k.length + p.v.length

/-- `struct Block { len: usize, content: Vec<KVPair> }` (database.rs:185). -/
structure Block where
  len : Nat
  content : List KVPair
deriving DecidableEq

/-- `Block::new` (database.rs:191). -/
def Block.new : Block := ⟨0, []⟩

/-- `Block::insert`: push the pair, grow `len` by its length (database.rs:204). -/
def Block.insert (b : Block) (p : KVPair) : Block :=
  ⟨b.len + p.len, b.content ++ [p]⟩

/-- `Block::first_key`: key of element 0, if any (database.rs:209). -/
def Block.first_key (b : Block) : Option (List Nat) :=
  (b.content.head?).map KVPair.k

/-- `struct IndexEntry { key: String, off: u64 }` (database.rs:178). -/
structure IndexEntry where
  key : List Nat
  off : Nat
deriving DecidableEq

/-- `struct IndexBlock { content: Vec<IndexEntry> }` (database.rs:82). -/
structure IndexBlock where
  content : List IndexEntry
deriving DecidableEq

/-- `IndexBlock::new` (database.rs:87). -/
def IndexBlock.new : IndexBlock := ⟨[]⟩

/-- `IndexBlock::insert`: push `(key, off)` (database.rs:109). -/
def IndexBlock.insert (ib : IndexBlock) (s : List Nat) (off : Nat) : IndexBlock :=
  ⟨ib.content ++ [⟨s, off⟩]⟩

/-- `IndexBlock::get_offset_for` (database.rs:116): linear scan over the
entries while `k >= entry.key` (i.e. `keyCmp entry.key k ≠ .gt`), remembering
the offset of the last entry seen; the iterator formulation below folds over
the `take_while` prefix exactly as the `for` loop does. -/
def IndexBlock.get_offset_for (ib : IndexBlock) (k : List Nat) : Option Nat :=
  (ib.content.takeWhile (fun e => !(keyCmp e.key k == .gt))).foldl
    (fun _ e => some e.off) none

/-- Sorted-association-list lookup: the embedding of `BTreeMap::get`
(the map's contents are kept strictly sorted by `Memtable.insert`). -/
def lookupKey : List KVPair → List Nat → Option (List Nat)
  | [], _ => none
  | p :: ps, k => if p.k = k then some p.v else lookupKey ps k

/-- `struct Memtable { table: BTreeMap<String,String>, len: usize,
block_size: usize }` (database.rs:58).  The `BTreeMap` is embedded as an
association list kept strictly ascending in `keyCmp`; `insert` below
maintains that order exactly as the map's ordered iteration exposes it. -/
structure Memtable where
  table : List KVPair
  len : Nat
  block_size : Nat
deriving DecidableEq

/-- `Memtable::new` (database.rs:223). -/
def Memtable.new (block_size : Nat) : Memtable := ⟨[], 0, block_size⟩

/-- Ordered-map insertion with replacement: `BTreeMap::insert`. -/
def insertPair : List KVPair → List Nat → List Nat → List KVPair
  | [], k, v => [⟨k, v⟩]
  | p :: ps, k, v =>
    match keyCmp k p.k with
    | .lt => ⟨k, v⟩ :: p :: ps
    | .eq => ⟨k, v⟩ :: ps
    | .gt => p :: insertPair ps k v

/-- `Memtable::insert` (database.rs:231): grow `len` by `k.len() + v.len()`
(even on overwrite) and insert into the map, replacing any old value. -/
def Memtable.insert (m : Memtable) (k v : List Nat) : Memtable :=
  ⟨insertPair m.table k v, m.len + (k.length + v.length), m.block_size⟩

/-- `Memtable::to_blocks` (database.rs:238), written as direct recursion over
the ordered pairs with the in-progress block as accumulator: when adding the
next record would make the block exceed `block_size`, emit the current block
(possibly empty) and start a fresh one; always emit the final block. -/
def blocksGo (bsize : Nat) (cur : Block) : List KVPair → List Block
  | [] => [cur]
  | p :: ps =>
    if bsize < cur.len + p.len then
      cur :: blocksGo bsize (Block.new.insert p) ps
    else
      blocksGo bsize (cur.insert p) ps

/-- `Memtable::to_blocks` entry point (database.rs:238). -/
def Memtable.to_blocks (m : Memtable) : List Block :=
  blocksGo m.block_size Block.new m.table

/-! ## The bincode codec

`u64`/`usize`/`i64` are 8 little-endian bytes; a `String` is its `u64` byte
length followed by the bytes; a `Vec<T>` is its `u64` element count followed
by the encoded elements; a struct is its fields in order.  `serialized_size`
is the length of the encoding. -/

/-- `w` little-endian base-256 digits of `n` (so `encLE 8 n` encodes
`n % 2^64` the way bincode writes a `u64`). -/
def encLE : Nat → Nat → List Nat
  | 0, _ => []
  | w + 1, n => n % 256 :: encLE w (n / 256)

/-- bincode `u64`. -/
def enc64 (n : Nat) : List Nat := encLE 8 n

/-- Value of a little-endian byte list. -/
def valLE : List Nat → Nat
  | [] => 0
  | b :: bs => b % 256 + 256 * valLE bs

/-- Read a `u64`: 8 bytes or fail (EOF). -/
def dec64 (bs : List Nat) : Option (Nat × List Nat) :=
  if 8 ≤ bs.length then some (valLE (bs.take 8), bs.drop 8) else none

/-- bincode `String`: length prefix then raw bytes. -/
def encBytes (s : List Nat) : List Nat := enc64 s.length ++ s

/-- Read a `String`. -/
def decBytes (bs : List Nat) : Option (List Nat × List Nat) :=
  match dec64 bs with
  | none => none
  | some (n, r) => if n ≤ r.length then some (r.take n, r.drop n) else none

/-- bincode of `KVPair`. -/
def encKVPair (p : KVPair) : List Nat := encBytes p.k ++ encBytes p.v

/-- Read a `KVPair`. -/
def decKVPair (bs : List Nat) : Option (KVPair × List Nat) :=
  match decBytes bs with
  | none => none
  | some (k, r) =>
    match decBytes r with
    | none => none
    | some (v, r') => some (⟨k, v⟩, r')

/-- Read `n` consecutive values with a given element reader. -/
def decMany (dec : List Nat → Option (α × List Nat)) :
    Nat → List Nat → Option (List α × List Nat)
  | 0, bs => some ([], bs)
  | n + 1, bs =>
    match dec bs with
    | none => none
    | some (a, r) =>
      match decMany dec n r with
      | none => none
      | some (as, r') => some (a :: as, r')

/-- bincode of `Block`: the `len` field, then the `Vec<KVPair>`. -/
def encBlock (b : Block) : List Nat :=
  enc64 b.len ++ enc64 b.content.length ++ (b.content.map encKVPair).flatten

/-- Read a `Block`. -/
def decBlock (bs : List Nat) : Option (Block × List Nat) :=
  match dec64 bs with
  | none => none
  | some (len, r1) =>
    match dec64 r1 with
    | none => none
    | some (cnt, r2) =>
      match decMany decKVPair cnt r2 with
      | none => none
      | some (ps, r3) => some (⟨len, ps⟩, r3)

/-- bincode of `IndexEntry`. -/
def encIndexEntry (e : IndexEntry) : List Nat := encBytes e.key ++ enc64 e.off

/-- Read an `IndexEntry`. -/
def decIndexEntry (bs : List Nat) : Option (IndexEntry × List Nat) :=
  match decBytes bs with
  | none => none
  | some (k, r) =>
    match dec64 r with
    | none => none
    | some (off, r') => some (⟨k, off⟩, r')

/-- bincode of `IndexBlock`: the `Vec<IndexEntry>`. -/
def encIndexBlock (ib : IndexBlock) : List Nat :=
  enc64 ib.content.length ++ (ib.content.map encIndexEntry).flatten

/-- Read an `IndexBlock`. -/
def decIndexBlock (bs : List Nat) : Option (IndexBlock × List Nat) :=
  match dec64 bs with
  | none => none
  | some (cnt, r) =>
    match decMany decIndexEntry cnt r with
    | none => none
    | some (es, r') => some (⟨es⟩, r')

/-! ## File readers (`from_file`) -/

/-- `IndexBlock::from_file` (database.rs:93).  The source ignores the result
of both `seek` calls and `unwrap`s both decodes, so:
* seek to `End(-8)`; on failure (file shorter than 8 bytes) the position
  stays at 0;
* read an `i64` trailer; a failed decode is an `unwrap` panic (`none` here);
* seek to `End(-(8 + idx_size))`; a failure (negative target) leaves the
  position where the trailer read ended;
* decode the `IndexBlock` there; a failed decode is again a panic. -/
def IndexBlock.from_file (content : List Nat) : Option IndexBlock :=
  let len := content.length
  let pos1 := if 8 ≤ len then len - 8 else 0
  match dec64 (content.drop pos1) with
  | none => none
  | some (n, _) =>
    let isz : Int := if n < 2 ^ 63 then (n : Int) else (n : Int) - 2 ^ 64
    let tgt : Int := (len : Int) - (8 + isz)
    let pos2 : Nat := if 0 ≤ tgt then tgt.toNat else pos1 + 8
    match decIndexBlock (content.drop pos2) with
    | none => none
    | some (ib, _) => some ib

/-- `Block::from_file` (database.rs:198): seek to `off` (seeking past the end
succeeds) and decode one block; the decode's failure is an `unwrap` panic. -/
def Block.from_file (content : List Nat) (off : Nat) : Option Block :=
  match decBlock (content.drop off) with
  | none => none
  | some (b, _) => some b

/-- `slice::binary_search_by` on the block's pairs, comparing
`kv.k.cmp(&key)`: half-interval search over `[left, right)`; fuel bounds the
iteration count (`content.length + 1` always suffices, see
`bsGo_correct`). -/
def bsGo (c : List KVPair) (key : List Nat) : Nat → Nat → Nat → Option Nat
  | 0, _, _ => none
  | fuel + 1, left, right =>
    if left < right then
      let mid := (left + right) / 2
      match keyCmp (c.getD mid ⟨[], []⟩).k key with
      | .lt => bsGo c key fuel (mid + 1) right
      | .gt => bsGo c key fuel left mid
      | .eq => some mid
    else none

/-- `Block::get` (database.rs:214): binary search on the keys; on a hit,
return the value at the found index. -/
def Block.get (b : Block) (key : List Nat) : Option (List Nat) :=
  match bsGo b.content key (b.content.length + 1) 0 b.content.length with
  | none => none
  | some i => (b.content.get? i).map KVPair.v

/-- `enum Error { NotFound, IOError(..), BincodeError(..) }`
(database.rs:17); payloads carry no information the model needs. -/
inductive DbError
  | notFound
  | ioError
  | bincodeError
deriving DecidableEq

/-- Outcome of a read: a value, a returned typed error, or a Rust panic
(a failed `unwrap` inside `from_file`). -/
inductive GetRes
  | ok (v : List Nat)
  | err (e : DbError)
  | panicked
deriving DecidableEq

/-- The host filesystem: path names and the bytes they currently hold.
`fsGet` is what `File::open`-then-read observes; `fsSet` is what
`File::create` followed by writing does (truncating an existing path in
place, or creating it). -/
def fsGet : List (String × List Nat) → String → Option (List Nat)
  | [], _ => none
  | (n, c) :: rest, nm => if n = nm then some c else fsGet rest nm

/-- Overwrite (truncate) or create a path. -/
def fsSet : List (String × List Nat) → String → List Nat → List (String × List Nat)
  | [], nm, c => [(nm, c)]
  | (n, c0) :: rest, nm, c =>
    if n = nm then (nm, c) :: rest else (n, c0) :: fsSet rest nm c

/-- `struct SSTable { idx: Option<IndexBlock>, file: Option<File>,
filename: String }` (database.rs:128).  The table stores only its filename,
the `opened` flag standing for the cached `Option<File>` handle, and the
lazily cached index block.  Reads always see the path's current bytes:
`File::create` on the same path truncates the same inode the cached handle
refers to, and the program never removes files, so reading through the
cached handle and re-reading the path at probe time observe the same
content; the handle cache's only behavioral role — failing the open when
the path is absent — fails identically on every probe. -/
structure SSTable where
  filename : String
  opened : Bool
  idx : Option IndexBlock
deriving DecidableEq

/-- `SSTable::new` (database.rs:136): handle-only constructor, no I/O. -/
def SSTable.new (filename : String) : SSTable := ⟨filename, false, none⟩

/-- The lookup performed once the file is open and the index is loaded
(database.rs:157-169): no candidate offset is `NotFound`; otherwise load the
block at the offset and return its value or `NotFound`. -/
def sstLookup (content : List Nat) (idx : IndexBlock) (key : List Nat) : GetRes :=
  match idx.get_offset_for key with
  | none => .err .notFound
  | some off =>
    match Block.from_file content off with
    | none => .panicked
    | some b =>
      match b.get key with
      | some v => .ok v
      | none => .err .notFound

/-- `SSTable::get` (database.rs:146): open the file if needed (`try!`
propagates the open failure as an I/O error), load and cache the index block
if needed (a malformed index is an `unwrap` panic), then look the key up in
the path's current bytes. -/
def SSTable.get (s : SSTable) (fs : List (String × List Nat))
    (key : List Nat) : SSTable × GetRes :=
  match fsGet fs s.filename with
  | none => (s, .err .ioError)
  | some content =>
    match s.idx with
    | some idx => ({ s with opened := true }, sstLookup content idx key)
    | none =>
      match IndexBlock.from_file content with
      | none => ({ s with opened := true }, .panicked)
      | some idx =>
        ({ s with opened := true, idx := some idx }, sstLookup content idx key)

/-- `struct Log { file: File }` (database.rs:279): the append-only WAL,
embedded as the bytes of the log file. -/
structure Log where
  bytes : List Nat
deriving DecidableEq

/-- `Log::record` (database.rs:295): serialize the pair and `write_all` it,
then `sync_data`.  The source discards the results of both calls, so a failed
write (`walOk = false`) appends nothing and is not reported. -/
def Log.record (l : Log) (key value : List Nat) (walOk : Bool) : Log :=
  if walOk then ⟨l.bytes ++ encKVPair ⟨key, value⟩⟩ else l

/-- One step of the decode loop of `Log::recover_memtable`
(database.rs:305-315): decode `KVPair`s until the first failure (EOF or a
malformed record), inserting each into the memtable.  Each successful decode
consumes at least 16 bytes, so fuel `bytes.length + 1` never runs out
(`recoverGo_spec`). -/
def recoverGo : Nat → List Nat → Memtable → Memtable
  | 0, _, m => m
  | fuel + 1, bs, m =>
    match decKVPair bs with
    | none => m
    | some (p, r) => recoverGo fuel r (m.insert p.k p.v)

/-- `Log::recover_memtable` (database.rs:302): seek to the start and run the
decode loop on a fresh memtable; the source always returns `Ok(memtable)`. -/
def Log.recover_memtable (l : Log) (block_size : Nat) : Memtable :=
  recoverGo (l.bytes.length + 1) l.bytes (Memtable.new block_size)

/-- `struct DatabaseConfig` (database.rs:320); `data_dir` is never joined
into any path by the source, so it is omitted. -/
structure DatabaseConfig where
  memtable_size : Nat
  block_size : Nat
  name : String
deriving DecidableEq

/-- `struct Database` (database.rs:253) together with the host filesystem
its SSTable files live on (`fs` is the disk, not a field of the Rust
struct; the WAL file's bytes are carried in `logfile` directly). -/
structure Database where
  conf : DatabaseConfig
  logfile : Log
  memtable : Memtable
  sstables : List SSTable
  fs : List (String × List Nat)
deriving DecidableEq

/-- `Database::new` (database.rs:334) with an empty (fresh) log file and an
empty disk. -/
def Database.new (conf : DatabaseConfig) : Database :=
  ⟨conf, ⟨[]⟩, Memtable.new conf.block_size, [], []⟩

/-- `Database::serialize_memtable` (database.rs:383): walk the blocks in
order; for each block with a first key, record `(first_key, off)` in the
index, advance `off` by the block's serialized size, and append the block's
bytes; blocks without a first key are skipped entirely.  Finally append the
serialized index block and its serialized size as the 8-byte trailer.
The source ignores every `serialize_into` result; these bytes are what a
fully successful write produces. -/
def serialize_memtable (m : Memtable) : List Nat :=
  let step := fun (acc : IndexBlock × Nat × List Nat) (b : Block) =>
    match b.first_key with
    | some k => (acc.1.insert k acc.2.1,
                 acc.2.1 + (encBlock b).length,
                 acc.2.2 ++ encBlock b)
    | none => acc
  let fin := m.to_blocks.foldl step (IndexBlock.new, 0, [])
  fin.2.2 ++ encIndexBlock fin.1 ++ enc64 (encIndexBlock fin.1).length

/-- `Database::set` (database.rs:344).  `walOk` drives the WAL `write_all`
(its failure is ignored by the source), `createOk` drives `File::create`
(its failure is propagated by `try!` before anything else changes), and
`writeOk` drives the `serialize_into` calls of the flush (their failures are
ignored: the SSTable is pushed and the memtable reset regardless; the file is
modelled as left truncated).  Every flush writes the one shared path
`<name>.db` (database.rs:347), `File::create` truncating whatever a prior
flush left there, and the pushed `SSTable::new` handle carries only that
filename.  Returns the new state and `set`'s result. -/
def Database.set (db : Database) (key value : List Nat)
    (walOk createOk writeOk : Bool) : Database × Except DbError Unit :=
  let db1 := { db with logfile := db.logfile.record key value walOk }
  if db1.conf.memtable_size < db1.memtable.len + (key.length + value.length) then
    if createOk then
      let filename := db1.conf.name ++ ".db"
      let content := if writeOk then serialize_memtable db1.memtable else []
      let db2 := { db1 with
        fs := fsSet db1.fs filename content,
        sstables := db1.sstables ++ [SSTable.new filename],
        memtable := Memtable.new db1.conf.block_size }
      ({ db2 with memtable := db2.memtable.insert key value }, .ok ())
    else
      (db1, .error .ioError)
  else
    ({ db1 with memtable := db1.memtable.insert key value }, .ok ())

/-- The SSTable scan of `Database::get` (database.rs:363-372): probe the
tables in the order they sit in the vector (index 0 first — the oldest, since
flushes `push` to the back); any `Err` from a table is skipped; the first
`Ok` value is returned; if every table errs, `NotFound`.  A panic inside a
probe aborts the scan.  Returns the updated tables (cached handles/indexes)
with the result. -/
def scanTables : List SSTable → List (String × List Nat) → List Nat →
    List SSTable × GetRes
  | [], _, _ => ([], .err .notFound)
  | t :: ts, fs, k =>
    let pr := t.get fs k
    match pr.2 with
    | .err _ =>
      let rest := scanTables ts fs k
      (pr.1 :: rest.1, rest.2)
    | .ok v => (pr.1 :: ts, .ok v)
    | .panicked => (pr.1 :: ts, .panicked)

/-- `Database::get` (database.rs:359): the memtable first, then the SSTable
scan over the current disk. -/
def Database.get (db : Database) (key : List Nat) : Database × GetRes :=
  match lookupKey db.memtable.table key with
  | some v => (db, .ok v)
  | none =>
    let sc := scanTables db.sstables db.fs key
    ({ db with sstables := sc.1 }, sc.2)

/-! ## Codec round-trip lemmas -/

theorem encLE_length (w n : Nat) : (encLE w n).length = w := by
  induction w generalizing n with
  | zero => rfl
  | succ w ih => simp [encLE, ih]

theorem valLE_encLE (w n : Nat) : valLE (encLE w n) = n % 256 ^ w := by
  induction w generalizing n with
  | zero => simp [encLE, valLE, Nat.mod_one]
  | succ w ih =>
    have h1 : n % 256 % 256 = n % 256 := Nat.mod_mod_of_dvd n dvd_rfl
    have h2 : (256 : Nat) ^ (w + 1) = 256 * 256 ^ w := by ring
    simp only [encLE, valLE, ih, h1, h2, Nat.mod_mul]

theorem enc64_length (n : Nat) : (enc64 n).length = 8 := encLE_length 8 n

theorem pow256_8 : (256 : Nat) ^ 8 = 2 ^ 64 := by norm_num

theorem dec64_enc64 (n : Nat) (r : List Nat) :
    dec64 (enc64 n ++ r) = some (n % 2 ^ 64, r) := by
  have hlen : (enc64 n).length = 8 := enc64_length n
  have htake : (enc64 n ++ r).take 8 = enc64 n := by
    rw [← hlen]; exact List.take_left _ _
  have hdrop : (enc64 n ++ r).drop 8 = r := by
    rw [← hlen]; exact List.drop_left _ _
  have h8 : 8 ≤ (enc64 n ++ r).length := by
    simp [hlen]
  unfold dec64
  rw [if_pos h8, htake, hdrop]
  unfold enc64
  rw [valLE_encLE, pow256_8]

theorem dec64_enc64_small {n : Nat} (r : List Nat) (h : n < 2 ^ 64) :
    dec64 (enc64 n ++ r) = some (n, r) := by
  rw [dec64_enc64, Nat.mod_eq_of_lt h]

theorem decBytes_encBytes {s : List Nat} (r : List Nat) (h : s.length < 2 ^ 64) :
    decBytes (encBytes s ++ r) = some (s, r) := by
  have hle : s.length ≤ (s ++ r).length := by
    simp
  have htake : (s ++ r).take s.length = s := List.take_left _ _
  have hdrop : (s ++ r).drop s.length = r := List.drop_left _ _
  simp only [decBytes, encBytes, List.append_assoc, dec64_enc64_small (s ++ r) h,
    hle, if_pos, htake, hdrop]

theorem decKVPair_encKVPair {p : KVPair} (r : List Nat)
    (hk : p.k.length < 2 ^ 64) (hv : p.v.length < 2 ^ 64) :
    decKVPair (encKVPair p ++ r) = some (p, r) := by
  simp only [decKVPair, encKVPair, List.append_assoc, decBytes_encBytes _ hk,
    decBytes_encBytes _ hv]

theorem decIndexEntry_encIndexEntry {e : IndexEntry} (r : List Nat)
    (hk : e.key.length < 2 ^ 64) (ho : e.off < 2 ^ 64) :
    decIndexEntry (encIndexEntry e ++ r) = some (e, r) := by
  simp only [decIndexEntry, encIndexEntry, List.append_assoc, decBytes_encBytes _ hk,
    dec64_enc64_small _ ho]

theorem decMany_encs {α : Type} (enc : α → List Nat)
    (dec : List Nat → Option (α × List Nat)) (l : List α) (r : List Nat)
    (helems : ∀ a ∈ l, ∀ r', dec (enc a ++ r') = some (a, r')) :
    decMany dec l.length ((l.map enc).flatten ++ r) = some (l, r) := by
  induction l with
  | nil => simp [decMany]
  | cons a as ih =>
    have ha := helems a (by simp) ((as.map enc).flatten ++ r)
    simp only [List.map_cons, List.flatten_cons, List.length_cons, List.append_assoc,
      decMany, ha]
    rw [ih (fun x hx r' => helems x (by simp [hx]) r')]

theorem decBlock_encBlock {b : Block} (r : List Nat)
    (hlen : b.len < 2 ^ 64) (hcnt : b.content.length < 2 ^ 64)
    (hps : ∀ p ∈ b.content, p.k.length < 2 ^ 64 ∧ p.v.length < 2 ^ 64) :
    decBlock (encBlock b ++ r) = some (b, r) := by
  have hmany := decMany_encs encKVPair decKVPair b.content r
    (fun p hp r' => decKVPair_encKVPair r' (hps p hp).1 (hps p hp).2)
  simp only [decBlock, encBlock, List.append_assoc, dec64_enc64_small _ hlen,
    dec64_enc64_small _ hcnt, hmany]

theorem decIndexBlock_encIndexBlock {ib : IndexBlock} (r : List Nat)
    (hcnt : ib.content.length < 2 ^ 64)
    (hes : ∀ e ∈ ib.content, e.key.length < 2 ^ 64 ∧ e.off < 2 ^ 64) :
    decIndexBlock (encIndexBlock ib ++ r) = some (ib, r) := by
  have hmany := decMany_encs encIndexEntry decIndexEntry ib.content r
    (fun e he r' => decIndexEntry_encIndexEntry r' (hes e he).1 (hes e he).2)
  simp only [decIndexBlock, encIndexBlock, List.append_assoc, dec64_enc64_small _ hcnt,
    hmany]

/-! ## Decoders consume bytes (for the WAL replay loop's fuel) -/

theorem dec64_shrink {bs r : List Nat} {n : Nat} (h : dec64 bs = some (n, r)) :
    r.length + 8 ≤ bs.length := by
  unfold dec64 at h
  by_cases h8 : 8 ≤ bs.length
  · rw [if_pos h8] at h
    cases h
    simp only [List.length_drop]
    omega
  · rw [if_neg h8] at h; cases h

theorem decBytes_shrink {bs r s : List Nat} (h : decBytes bs = some (s, r)) :
    r.length + 8 ≤ bs.length := by
  unfold decBytes at h
  cases h64 : dec64 bs with
  | none => rw [h64] at h; cases h
  | some nr =>
    rw [h64] at h
    by_cases hle : nr.1 ≤ nr.2.length
    · simp only [hle, if_pos] at h
      cases h
      have := dec64_shrink h64
      simp [List.length_drop]
      omega
    · simp [hle] at h

theorem decKVPair_shrink {bs r : List Nat} {p : KVPair}
    (h : decKVPair bs = some (p, r)) : r.length + 16 ≤ bs.length := by
  unfold decKVPair at h
  cases hk : decBytes bs with
  | none => rw [hk] at h; cases h
  | some kr =>
    obtain ⟨k0, r0⟩ := kr
    rw [hk] at h
    dsimp only at h
    cases hv : decBytes r0 with
    | none => rw [hv] at h; cases h
    | some vr =>
      obtain ⟨v0, r1⟩ := vr
      rw [hv] at h
      cases h
      have h1 := decBytes_shrink hk
      have h2 := decBytes_shrink hv
      omega

/-! ## Claim C1: probe order of the SSTable scan -/

set_option maxRecDepth 10000

/-- No-flush configuration (threshold never reached by the scenarios). -/
def confNoFlush : DatabaseConfig := ⟨100, 100, "db"⟩

/-- Flush-between configuration: the second `set` of the C5 scenario
flushes. -/
def confFlushBetween : DatabaseConfig := ⟨2, 100, "db"⟩

/-- A singleton-memtable SSTable file holding `a ↦ "o"`. -/
def fOld : List Nat := serialize_memtable ⟨[⟨[97], [111]⟩], 2, 16⟩

/-- A singleton-memtable SSTable file holding `a ↦ "n"`. -/
def fNew : List Nat := serialize_memtable ⟨[⟨[97], [110]⟩], 2, 16⟩

/-- A database state with two SSTables over distinct backing files: the
older (index 0, pushed first) over `db0.db` holding `a ↦ "o"`, the newer
(pushed last) over `db1.db` holding `a ↦ "n"`; the memtable is empty.  The
flush code as written reuses the single path `<name>.db`, so flushes alone
leave every handle on one file; this state is nonetheless a legal value of
the `Database` struct plus disk (it is what the per-flush naming scheme
documented at database.rs:329 produces), and claim C1 quantifies over every
database state. -/
def dbTwoFiles : Database :=
  ⟨⟨100, 16, "db"⟩, ⟨[]⟩, Memtable.new 16,
   [SSTable.new "db0.db", SSTable.new "db1.db"],
   [("db0.db", fOld), ("db1.db", fNew)]⟩

/-- Counterexample to claim C1 as stated: at `dbTwoFiles` the key `"a"` is
absent from the memtable and present in both SSTables with different
values; the newer (last-pushed) SSTable probed alone yields `"n"` = `[110]`,
but `Database::get` returns `"o"` = `[111]` from the older one, because the
loop at database.rs:363 walks the vector from index 0 — oldest first, not
newest first as the claim says. -/
theorem claim1_counterexample :
    lookupKey dbTwoFiles.memtable.table [97] = none
    ∧ ((dbTwoFiles.sstables.getD 1 (SSTable.new "")).get dbTwoFiles.fs [97]).2
        = .ok [110]
    ∧ ((dbTwoFiles.sstables.getD 0 (SSTable.new "")).get dbTwoFiles.fs [97]).2
        = .ok [111]
    ∧ (dbTwoFiles.get [97]).2 = .ok [111]
    ∧ GetRes.ok [111] ≠ GetRes.ok [110] := by
  refine ⟨by decide, by decide, by decide, by decide, by decide⟩

/-- Claim C1 amended: for every database state and key absent from the
memtable, `Database::get` probes the SSTable stack from OLDEST (index 0,
first pushed) to newest and returns the value from the first SSTable that
yields one — so when the key is present in two SSTables with distinct
backing files, the OLDER SSTable's value wins.  (With the current single
shared flush path, every probe reads the newest flush's bytes, which masks
the order on flush-produced states.) -/
theorem claim1_get_probes_oldest_first (db : Database) (k : List Nat)
    (hmem : lookupKey db.memtable.table k = none)
    (t1 : SSTable) (rest : List SSTable) (hss : db.sstables = t1 :: rest)
    (v : List Nat) (h1 : (t1.get db.fs k).2 = .ok v) :
    (db.get k).2 = .ok v := by
  unfold Database.get
  rw [hmem, hss]
  simp only [scanTables, h1]

/-- Witness for the amended C1 at the two-file state: the oldest SSTable's
hit wins even though the newest holds a different value. -/
theorem claim1_get_probes_oldest_first_witness :
    (dbTwoFiles.get [97]).2 = .ok [111] :=
  claim1_get_probes_oldest_first dbTwoFiles [97] (by decide)
    (SSTable.new "db0.db") [SSTable.new "db1.db"] (by decide) [111] (by decide)

/-- Claim C4: the claim says `set` succeeds only after its WAL record is
written, and a failed WAL append is propagated with the memtable untouched.
`Log::record` discards the results of `write_all` and `sync_data`
(database.rs:297-298), so when the WAL write fails (`walOk = false`) the
record below shows `set` still returns `Ok`, still inserts into the
memtable, and the log gains nothing — nothing is propagated. -/
theorem claim4_wal_append_failure_is_ignored :
    ((Database.new confNoFlush).set [97] [49] false true true).2 = .ok ()
    ∧ ((Database.new confNoFlush).set [97] [49] false true true).1.memtable.table
        = [⟨[97], [49]⟩]
    ∧ ((Database.new confNoFlush).set [97] [49] false true true).1.logfile.bytes
        = [] := by
  refine ⟨rfl, by decide, by decide⟩

/-- One successful `set` under the flush-between configuration: the memtable
holds `a ↦ "1"` and sits at the threshold. -/
def dbC5 : Database := ((Database.new confFlushBetween).set [97] [49] true true true).1

/-- Claim C5: the claim says a flush failure inside `set` is propagated and
the memtable is kept.  That is true for `File::create` (second half below:
`try!` at database.rs:348 propagates, memtable intact, nothing pushed), but
`serialize_memtable` returns `()` and every `serialize_into` result in it is
discarded (database.rs:393,399-403), so when serialization fails
(`writeOk = false`) the first half shows `set` still returns `Ok`, pushes
the SSTable handle, and resets the memtable — the pair `a ↦ "1"` is lost
from it. -/
theorem claim5_serialize_failure_still_resets_memtable :
    ((dbC5.set [98] [50] true true false).2 = .ok ()
      ∧ (dbC5.set [98] [50] true true false).1.memtable.table = [⟨[98], [50]⟩]
      ∧ (dbC5.set [98] [50] true true false).1.sstables.length = 1)
    ∧ ((dbC5.set [98] [50] true false true).2 = .error .ioError
      ∧ (dbC5.set [98] [50] true false true).1.memtable.table = [⟨[97], [49]⟩]
      ∧ (dbC5.set [98] [50] true false true).1.sstables = []) := by
  refine ⟨⟨rfl, by decide, by decide⟩, ⟨rfl, by decide, by decide⟩⟩

/-- A database whose single SSTable's file is empty (for example truncated
to zero bytes). -/
def dbC7 : Database :=
  ⟨confNoFlush, ⟨[]⟩, Memtable.new 100, [SSTable.new "db.db"], [("db.db", [])]⟩

/-- Claim C7: the claim says every I/O or decode failure during an SSTable
read is returned as a typed error instead of aborting.  But
`IndexBlock::from_file` ignores both `seek` results and `unwrap`s both
decodes (database.rs:96-99), as does `Block::from_file` (database.rs:200),
so reading the 0-byte SSTable file below panics (the trailer decode fails
and is `unwrap`ed): the probe aborts instead of yielding a typed error, and
`Database::get` aborts with it. -/
theorem claim7_truncated_sstable_read_aborts :
    ((SSTable.new "db.db").get [("db.db", [])] [97]).2 = .panicked
    ∧ ((SSTable.new "db.db").get [("db.db", [1, 2, 3])] [97]).2 = .panicked
    ∧ (dbC7.get [97]).2 = .panicked := by
  refine ⟨by decide, by decide, by decide⟩

/-! ## Claim C9: block packing bound -/

/-- Invariant of the greedy packer: if the in-progress block is within the
bound (or an oversized singleton), then so is every emitted block. -/
theorem blocksGo_bound (bsize : Nat) (cur : Block) (l : List KVPair)
    (hcur : cur.len ≤ bsize ∨ ∃ p, cur.content = [p] ∧ cur.len = p.len ∧ bsize < p.len) :
    ∀ b ∈ blocksGo bsize cur l,
      b.len ≤ bsize ∨ ∃ p, b.content = [p] ∧ b.len = p.len ∧ bsize < p.len := by
  induction l generalizing cur with
  | nil =>
    intro b hb
    simp only [blocksGo, List.mem_singleton] at hb
    subst hb; exact hcur
  | cons p ps ih =>
    intro b hb
    simp only [blocksGo] at hb
    by_cases hover : bsize < cur.len + p.len
    · rw [if_pos hover] at hb
      rcases List.mem_cons.mp hb with h | h
      · subst h; exact hcur
      · refine ih _ ?_ b h
        by_cases hp : p.len ≤ bsize
        · left
          simp [Block.new, Block.insert, hp]
        · right
          exact ⟨p, by simp [Block.new, Block.insert], by simp [Block.new, Block.insert],
            Nat.lt_of_not_le hp⟩
    · rw [if_neg hover] at hb
      refine ih _ ?_ b hb
      left
      simp only [Block.insert]
      exact Nat.le_of_not_lt hover

/-- Claim C9: every block produced by draining the memtable during a flush
has `size ≤ block_size`, except that a record longer than `block_size` on
its own sits alone in its block (whose size is then that record's length). -/
theorem claim9_block_packing_bound (m : Memtable) (b : Block) (hb : b ∈ m.to_blocks) :
    b.len ≤ m.block_size ∨ ∃ p, b.content = [p] ∧ b.len = p.len ∧ m.block_size < p.len :=
  blocksGo_bound m.block_size Block.new m.table (Or.inl (Nat.zero_le _)) b hb

/-- Single-pair memtable whose record is longer than its `block_size`. -/
def mtC9 : Memtable := ⟨[⟨[97], [49]⟩], 2, 1⟩

/-- Witness for C9 at a concrete oversized record. -/
theorem claim9_block_packing_bound_witness :
    (Block.mk 2 [⟨[97], [49]⟩] ∈ mtC9.to_blocks)
    ∧ ((Block.mk 2 [⟨[97], [49]⟩]).len ≤ mtC9.block_size
        ∨ ∃ p, (Block.mk 2 [⟨[97], [49]⟩]).content = [p]
            ∧ (Block.mk 2 [⟨[97], [49]⟩]).len = p.len ∧ mtC9.block_size < p.len) :=
  ⟨by decide, claim9_block_packing_bound mtC9 _ (by decide)⟩

/-! ## Claim C10: `Database::get` skips SSTable errors -/

/-- The SSTable scan can only err with `NotFound`: every error returned by a
probe is skipped, and the terminal case returns `NotFound`. -/
theorem scanTables_err {ts : List SSTable} {fs : List (String × List Nat)}
    {k : List Nat} {e : DbError}
    (h : (scanTables ts fs k).2 = .err e) : e = .notFound := by
  induction ts with
  | nil =>
    simp only [scanTables] at h
    cases h; rfl
  | cons t ts ih =>
    simp only [scanTables] at h
    cases hg : (t.get fs k).2 with
    | err e' => rw [hg] at h; exact ih h
    | ok v => rw [hg] at h; cases h
    | panicked => rw [hg] at h; cases h

/-- Claim C10: any `Err` from an SSTable probe (`NotFound`, I/O, codec alike)
makes the scan `continue` with the next (older) table, and the only error
`Database::get` itself ever returns is `NotFound`. -/
theorem claim10_get_skips_sstable_errors :
    (∀ (t : SSTable) (ts : List SSTable) (fs : List (String × List Nat))
        (k : List Nat) (e : DbError),
        (t.get fs k).2 = .err e →
          (scanTables (t :: ts) fs k).2 = (scanTables ts fs k).2)
    ∧ (∀ (db : Database) (k : List Nat) (e : DbError),
        (db.get k).2 = .err e → e = .notFound) := by
  constructor
  · intro t ts fs k e hg
    simp only [scanTables, hg]
  · intro db k e h
    unfold Database.get at h
    cases hl : lookupKey db.memtable.table k with
    | some v => rw [hl] at h; cases h
    | none =>
      rw [hl] at h
      exact scanTables_err h

/-- An SSTable whose backing file is gone: probing it is an I/O error. -/
def sstMissing : SSTable := SSTable.new "gone.db"

/-- Witness for C10: the missing-file probe errs with `IOError` and is
skipped; a fresh database's `get` errs only with `NotFound`. -/
theorem claim10_get_skips_sstable_errors_witness :
    (scanTables [sstMissing] [] [1]).2 = (scanTables [] [] [1]).2
    ∧ DbError.notFound = DbError.notFound :=
  ⟨claim10_get_skips_sstable_errors.1 sstMissing [] [] [1] .ioError (by decide),
   claim10_get_skips_sstable_errors.2 (Database.new confNoFlush) [1] .notFound (by decide)⟩

/-! ## Claim C8: `get_offset_for` finds the greatest `first_key ≤ k` -/

/-- The `for` loop of `get_offset_for` keeps the offset of the last entry it
sees; folding from a `some` accumulator yields that accumulator only when the
remaining list is empty. -/
theorem foldl_last_off (l : List IndexEntry) (o : Nat) :
    l.foldl (fun _ e => some e.off) (some o)
      = some ((l.foldl (fun (_ : Option Nat) e => some e.off) none).getD o) := by
  induction l generalizing o with
  | nil => rfl
  | cons e es ih =>
    simp only [List.foldl_cons]
    rw [ih e.off]
    simp

/-- Recursion equation for `get_offset_for`: an entry with `first_key > k`
stops the `take_while`; otherwise the tail's answer wins when there is one,
else this entry's offset. -/
theorem gof_cons (e : IndexEntry) (es : List IndexEntry) (k : List Nat) :
    IndexBlock.get_offset_for ⟨e :: es⟩ k =
      if keyCmp e.key k = .gt then none
      else some ((IndexBlock.get_offset_for ⟨es⟩ k).getD e.off) := by
  by_cases hg : keyCmp e.key k = .gt
  · have hc : (!(keyCmp e.key k == Ordering.gt)) = false := by
      rw [hg]; rfl
    rw [if_pos hg]
    unfold IndexBlock.get_offset_for
    rw [List.takeWhile_cons, hc]
    rfl
  · have hc : (!(keyCmp e.key k == Ordering.gt)) = true := by
      cases h : keyCmp e.key k
      · rfl
      · rfl
      · exact absurd h hg
    rw [if_neg hg]
    unfold IndexBlock.get_offset_for
    rw [List.takeWhile_cons, hc, if_pos rfl, List.foldl_cons, foldl_last_off]

/-- In a strictly ascending entry list, entries with the same key are equal. -/
theorem pairwise_key_inj {l : List IndexEntry}
    (hs : l.Pairwise (fun a b => keyCmp a.key b.key = .lt))
    {a b : IndexEntry} (ha : a ∈ l) (hb : b ∈ l) (hk : a.key = b.key) : a = b := by
  induction l with
  | nil => cases ha
  | cons e es ih =>
    have he : ∀ x ∈ es, keyCmp e.key x.key = .lt :=
      fun x hx => List.rel_of_pairwise_cons hs hx
    rcases List.mem_cons.mp ha with ha' | ha' <;> rcases List.mem_cons.mp hb with hb' | hb'
    · rw [ha', hb']
    · subst ha'
      exact absurd hk (keyCmp_lt_ne (he b hb'))
    · subst hb'
      exact absurd hk.symm (keyCmp_lt_ne (he a ha'))
    · exact ih (List.Pairwise.of_cons hs) ha' hb'

/-- Full characterization of `get_offset_for` on a strictly ascending entry
list: `none` exactly when `k` precedes every `first_key`, and otherwise the
offset of an entry whose key is `≤ k` and greatest such. -/
theorem gof_spec (l : List IndexEntry) (k : List Nat)
    (hs : l.Pairwise (fun a b => keyCmp a.key b.key = .lt)) :
    (IndexBlock.get_offset_for ⟨l⟩ k = none ↔ ∀ e ∈ l, keyCmp k e.key = .lt)
    ∧ (∀ o, IndexBlock.get_offset_for ⟨l⟩ k = some o →
        ∃ e ∈ l, e.off = o ∧ keyCmp e.key k ≠ .gt ∧
          ∀ x ∈ l, keyCmp x.key k ≠ .gt → keyCmp x.key e.key ≠ .gt) := by
  induction l with
  | nil =>
    constructor
    · simp [IndexBlock.get_offset_for]
    · intro o ho
      cases ho
  | cons e es ih =>
    have he : ∀ x ∈ es, keyCmp e.key x.key = .lt :=
      fun x hx => List.rel_of_pairwise_cons hs hx
    have ihsp := ih (List.Pairwise.of_cons hs)
    rw [gof_cons]
    by_cases hg : keyCmp e.key k = .gt
    · rw [if_pos hg]
      constructor
      · constructor
        · intro _ x hx
          rcases List.mem_cons.mp hx with hx' | hx'
          · subst hx'
            exact keyCmp_swap.mpr hg
          · exact keyCmp_lt_trans (keyCmp_swap.mpr hg) (he x hx')
        · intro _; rfl
      · intro o ho
        cases ho
    · rw [if_neg hg]
      constructor
      · constructor
        · intro h; cases h
        · intro hall
          exact absurd (keyCmp_swap.mp (hall e (by simp))) hg
      · intro o ho
        cases hes : IndexBlock.get_offset_for ⟨es⟩ k with
        | none =>
          rw [hes] at ho
          simp only [Option.getD_none, Option.some.injEq] at ho
          subst ho
          refine ⟨e, by simp, rfl, hg, ?_⟩
          intro x hx hxk
          rcases List.mem_cons.mp hx with hx' | hx'
          · subst hx'
            rw [keyCmp_refl]
            intro h; cases h
          · have := (ihsp.1).mp hes x hx'
            exact absurd (keyCmp_swap.mp this) hxk
        | some o' =>
          rw [hes] at ho
          simp only [Option.getD_some, Option.some.injEq] at ho
          subst ho
          obtain ⟨e', he', hoff, hle, hmax⟩ := ihsp.2 o' hes
          refine ⟨e', by simp [he'], hoff, hle, ?_⟩
          intro x hx hxk
          rcases List.mem_cons.mp hx with hx' | hx'
          · subst hx'
            have hlt := he e' he'
            rw [hlt]
            intro h; cases h
          · exact hmax x hx' hxk

/-- Claim C8: for an `IndexBlock` with strictly ascending keys,
`get_offset_for k` is `none` exactly when `k` precedes every entry's
`first_key`, and otherwise returns the offset of the entry with the greatest
`first_key ≤ k`. -/
theorem claim8_get_offset_for_greatest_le (ib : IndexBlock) (k : List Nat)
    (hs : ib.content.Pairwise (fun a b => keyCmp a.key b.key = .lt)) :
    (ib.get_offset_for k = none ↔ ∀ e ∈ ib.content, keyCmp k e.key = .lt)
    ∧ (∀ o, ib.get_offset_for k = some o →
        ∃ e ∈ ib.content, e.off = o ∧ keyCmp e.key k ≠ .gt ∧
          ∀ x ∈ ib.content, keyCmp x.key k ≠ .gt → keyCmp x.key e.key ≠ .gt) :=
  gof_spec ib.content k hs

/-- Witness for C8 at a concrete two-entry index and a key between the two
first keys: the lookup picks the first entry's offset. -/
theorem claim8_get_offset_for_greatest_le_witness :
    ∃ e ∈ (IndexBlock.mk [⟨[97], 5⟩, ⟨[99], 17⟩]).content, e.off = 5
      ∧ keyCmp e.key [98] ≠ .gt
      ∧ ∀ x ∈ (IndexBlock.mk [⟨[97], 5⟩, ⟨[99], 17⟩]).content,
          keyCmp x.key [98] ≠ .gt → keyCmp x.key e.key ≠ .gt :=
  (claim8_get_offset_for_greatest_le ⟨[⟨[97], 5⟩, ⟨[99], 17⟩]⟩ [98] (by decide)).2
    5 (by decide)

/-! ## Claim C6: WAL replay equivalence -/

theorem encBytes_length (s : List Nat) : (encBytes s).length = 8 + s.length := by
  simp [encBytes, enc64_length]

theorem encKVPair_length (p : KVPair) :
    (encKVPair p).length = 16 + (p.k.length + p.v.length) := by
  simp [encKVPair, encBytes_length]
  ring

/-- A sequence of `set`s, every I/O operation succeeding. -/
def applySets (db : Database) : List KVPair → Database
  | [] => db
  | p :: ps => applySets (db.set p.k p.v true true true).1 ps

/-- `set` always appends the record's encoding to the WAL (database.rs:345
runs before any flush decision). -/
theorem set_log (db : Database) (k v : List Nat) (c wr : Bool) :
    (db.set k v true c wr).1.logfile = ⟨db.logfile.bytes ++ encKVPair ⟨k, v⟩⟩ := by
  have hrec : db.logfile.record k v true = ⟨db.logfile.bytes ++ encKVPair ⟨k, v⟩⟩ := rfl
  unfold Database.set
  dsimp only
  rw [hrec]
  split_ifs <;> rfl

/-- When the threshold is not exceeded, `set` only appends to the WAL and
inserts into the memtable. -/
theorem set_no_flush (db : Database) (k v : List Nat)
    (h : ¬ db.conf.memtable_size < db.memtable.len + (k.length + v.length)) :
    (db.set k v true true true).1
      = { db with logfile := db.logfile.record k v true,
                  memtable := db.memtable.insert k v } := by
  unfold Database.set
  dsimp only
  rw [if_neg h]

theorem applySets_log (db : Database) (S : List KVPair) :
    (applySets db S).logfile.bytes = db.logfile.bytes ++ (S.map encKVPair).flatten := by
  induction S generalizing db with
  | nil => simp [applySets]
  | cons p ps ih =>
    rw [applySets, ih, set_log]
    simp

/-- Under a total size that fits the threshold, no `set` in the sequence
flushes, and the memtable is just the fold of the inserts. -/
theorem applySets_no_flush (db : Database) (S : List KVPair)
    (hfit : db.memtable.len + (S.map KVPair.len).sum ≤ db.conf.memtable_size) :
    (applySets db S).memtable
      = S.foldl (fun mt p => mt.insert p.k p.v) db.memtable := by
  induction S generalizing db with
  | nil => rfl
  | cons p ps ih =>
    have hnof : ¬ db.conf.memtable_size < db.memtable.len + (p.k.length + p.v.length) := by
      simp only [List.map_cons, List.sum_cons, KVPair.len] at hfit
      omega
    rw [applySets, List.foldl_cons, set_no_flush db p.k p.v hnof]
    refine ih _ ?_
    simp only [List.map_cons, List.sum_cons, KVPair.len] at hfit
    simp only [Memtable.insert]
    omega

/-- The replay loop on an encoded record stream followed by an undecodable
tail folds the inserts in order; fuel over the byte count never runs out. -/
theorem recoverGo_spec (S : List KVPair) (junk : List Nat) (m : Memtable) (fuel : Nat)
    (hwf : ∀ p ∈ S, p.k.length < 2 ^ 64 ∧ p.v.length < 2 ^ 64)
    (hjunk : decKVPair junk = none)
    (hfuel : ((S.map encKVPair).flatten ++ junk).length < fuel) :
    recoverGo fuel ((S.map encKVPair).flatten ++ junk) m
      = S.foldl (fun mt p => mt.insert p.k p.v) m := by
  induction S generalizing m fuel with
  | nil =>
    cases fuel with
    | zero => exact absurd hfuel (Nat.not_lt_zero _)
    | succ f => simp [recoverGo, hjunk]
  | cons p ps ih =>
    cases fuel with
    | zero => exact absurd hfuel (Nat.not_lt_zero _)
    | succ f =>
      have hp := hwf p (by simp)
      have hdec : decKVPair (encKVPair p ++ ((ps.map encKVPair).flatten ++ junk))
          = some (p, (ps.map encKVPair).flatten ++ junk) :=
        decKVPair_encKVPair _ hp.1 hp.2
      simp only [List.map_cons, List.flatten_cons, List.append_assoc, List.foldl_cons]
      simp only [recoverGo, hdec]
      refine ih _ _ (fun q hq => hwf q (List.mem_cons_of_mem _ hq)) ?_
      have h16 : (encKVPair p).length = 16 + (p.k.length + p.v.length) := encKVPair_length p
      simp only [List.map_cons, List.flatten_cons, List.append_assoc,
        List.length_append] at hfuel
      rw [h16] at hfuel
      simp only [List.length_append]
      omega

/-- Claim C6: replay decodes the WAL from the start, stops at EOF or at the
first undecodable bytes (`junk`, not a fatal error), inserts each decoded
pair in order into a fresh memtable, and the result equals the memtable of
applying the same `set` sequence to a fresh database (no flush occurring,
which `hfit` guarantees). -/
theorem claim6_wal_replay_equivalence (conf : DatabaseConfig) (S : List KVPair)
    (junk : List Nat)
    (hwf : ∀ p ∈ S, p.k.length < 2 ^ 64 ∧ p.v.length < 2 ^ 64)
    (hjunk : decKVPair junk = none)
    (hfit : (S.map KVPair.len).sum ≤ conf.memtable_size) :
    Log.recover_memtable ⟨(applySets (Database.new conf) S).logfile.bytes ++ junk⟩
        conf.block_size
      = (applySets (Database.new conf) S).memtable := by
  have hlog : (applySets (Database.new conf) S).logfile.bytes
      = (S.map encKVPair).flatten := by
    rw [applySets_log]
    rfl
  have hmem : (applySets (Database.new conf) S).memtable
      = S.foldl (fun mt p => mt.insert p.k p.v) (Memtable.new conf.block_size) :=
    applySets_no_flush (Database.new conf) S (by simpa [Database.new, Memtable.new] using hfit)
  rw [hlog, hmem]
  unfold Log.recover_memtable
  exact recoverGo_spec S junk _ _ hwf hjunk (by simp)

/-- Three `set`s, the first key written twice. -/
def walS : List KVPair := [⟨[97], [49]⟩, ⟨[98], [50]⟩, ⟨[97], [51]⟩]

/-- Witness for C6 at a concrete `set` sequence with an undecodable
single-byte tail. -/
theorem claim6_wal_replay_equivalence_witness :
    (∀ p ∈ walS, p.k.length < 2 ^ 64 ∧ p.v.length < 2 ^ 64)
    ∧ decKVPair [7] = none
    ∧ (walS.map KVPair.len).sum ≤ (100 : Nat)
    ∧ Log.recover_memtable
          ⟨(applySets (Database.new ⟨100, 10, "w"⟩) walS).logfile.bytes ++ [7]⟩ 10
        = (applySets (Database.new ⟨100, 10, "w"⟩) walS).memtable :=
  ⟨by decide, by decide, by decide,
    claim6_wal_replay_equivalence ⟨100, 10, "w"⟩ walS [7] (by decide) (by decide) (by decide)⟩

/-! ## Binary search (`Block::get`) correctness on sorted content -/

/-- Two members of a pairwise-related list are equal or related one way. -/
theorem mem_pairwise_cases {α : Type} {R : α → α → Prop} {l : List α}
    (h : l.Pairwise R) {x y : α} (hx : x ∈ l) (hy : y ∈ l) :
    x = y ∨ R x y ∨ R y x := by
  induction l with
  | nil => cases hx
  | cons a as ih =>
    have ha : ∀ z ∈ as, R a z := fun z hz => List.rel_of_pairwise_cons h hz
    rcases List.mem_cons.mp hx with hx' | hx' <;> rcases List.mem_cons.mp hy with hy' | hy'
    · subst hx'; subst hy'; exact Or.inl rfl
    · subst hx'; exact Or.inr (Or.inl (ha y hy'))
    · subst hy'; exact Or.inr (Or.inr (ha x hx'))
    · exact ih (List.Pairwise.of_cons h) hx' hy'

/-- In strictly sorted content, pairs with the same key are equal. -/
theorem pairwise_pk_inj {l : List KVPair}
    (hs : l.Pairwise (fun p q => keyCmp p.k q.k = .lt))
    {p q : KVPair} (hp : p ∈ l) (hq : q ∈ l) (hk : p.k = q.k) : p = q := by
  rcases mem_pairwise_cases hs hp hq with h | h | h
  · exact h
  · exact absurd hk (keyCmp_lt_ne h)
  · exact absurd hk.symm (keyCmp_lt_ne h)

/-- Positional sortedness of a block's content. -/
theorem sorted_getD_lt {c : List KVPair}
    (hs : c.Pairwise (fun p q => keyCmp p.k q.k = .lt))
    {i j : Nat} (hij : i < j) (hj : j < c.length) :
    keyCmp (c.getD i ⟨[], []⟩).k (c.getD j ⟨[], []⟩).k = .lt := by
  have hi : i < c.length := Nat.lt_trans hij hj
  rw [List.getD_eq_getElem c _ hi, List.getD_eq_getElem c _ hj]
  exact List.pairwise_iff_getElem.mp hs i j hi hj hij

/-- The half-interval search is correct on sorted content: it finds an index
holding the key when one is in range, and returns `none` when no index in
range holds the key.  Fuel above the interval width never runs out. -/
theorem bsGo_correct {c : List KVPair} {key : List Nat}
    (hs : c.Pairwise (fun p q => keyCmp p.k q.k = .lt)) :
    ∀ fuel left right, right ≤ c.length → right - left < fuel →
      ((∃ j, left ≤ j ∧ j < right ∧ (c.getD j ⟨[], []⟩).k = key) →
        ∃ i, bsGo c key fuel left right = some i ∧ i < c.length
          ∧ (c.getD i ⟨[], []⟩).k = key)
      ∧ ((∀ j, left ≤ j → j < right → (c.getD j ⟨[], []⟩).k ≠ key) →
        bsGo c key fuel left right = none) := by
  intro fuel
  induction fuel with
  | zero => intro left right _ hf; omega
  | succ f ih =>
    intro left right hrlen hf
    by_cases hlr : left < right
    · have hmidlt : (left + right) / 2 < right := by omega
      have hmidge : left ≤ (left + right) / 2 := by omega
      set mid := (left + right) / 2 with hmid
      cases hcmp : keyCmp (c.getD mid ⟨[], []⟩).k key with
      | eq =>
        have hkey := keyCmp_eq_iff.mp hcmp
        constructor
        · intro _
          refine ⟨mid, ?_, by omega, hkey⟩
          simp only [bsGo, if_pos hlr, ← hmid, hcmp]
        · intro hnone
          exact absurd hkey (hnone mid hmidge hmidlt)
      | lt =>
        have hrec := ih (mid + 1) right hrlen (by omega)
        have hstep : bsGo c key (f + 1) left right = bsGo c key f (mid + 1) right := by
          simp only [bsGo, if_pos hlr, ← hmid, hcmp]
        constructor
        · intro ⟨j, hjl, hjr, hjk⟩
          rw [hstep]
          refine hrec.1 ⟨j, ?_, hjr, hjk⟩
          by_contra hle
          have hjmid : j ≤ mid := by omega
          rcases Nat.lt_or_ge j mid with hj | hj
          · have := keyCmp_lt_trans (sorted_getD_lt hs hj (by omega)) hcmp
            rw [hjk] at this
            exact absurd rfl (keyCmp_lt_ne this)
          · have hjeq : j = mid := by omega
            rw [← hjeq] at hcmp
            rw [hjk] at hcmp
            exact absurd rfl (keyCmp_lt_ne hcmp)
        · intro hnone
          rw [hstep]
          exact hrec.2 (fun j h1 h2 => hnone j (by omega) h2)
      | gt =>
        have hklt : keyCmp key (c.getD mid ⟨[], []⟩).k = .lt := keyCmp_swap.mpr hcmp
        have hrec := ih left mid (by omega) (by omega)
        have hstep : bsGo c key (f + 1) left right = bsGo c key f left mid := by
          simp only [bsGo, if_pos hlr, ← hmid, hcmp]
        constructor
        · intro ⟨j, hjl, hjr, hjk⟩
          rw [hstep]
          refine hrec.1 ⟨j, hjl, ?_, hjk⟩
          by_contra hle
          have hjmid : mid ≤ j := by omega
          rcases Nat.lt_or_ge mid j with hj | hj
          · have hkj := keyCmp_lt_trans hklt (sorted_getD_lt hs hj (by omega))
            rw [hjk] at hkj
            exact absurd rfl (keyCmp_lt_ne hkj)
          · have hjeq : j = mid := by omega
            rw [← hjeq] at hklt
            rw [hjk] at hklt
            exact absurd rfl (keyCmp_lt_ne hklt)
        · intro hnone
          rw [hstep]
          exact hrec.2 (fun j h1 h2 => hnone j h1 (by omega))
    · have hstep : bsGo c key (f + 1) left right = none := by
        simp only [bsGo, if_neg hlr]
      constructor
      · intro ⟨j, hjl, hjr, _⟩
        omega
      · intro _
        exact hstep

/-- `Block::get` returns the stored value of a key present in sorted
content. -/
theorem block_get_found {b : Block}
    (hs : b.content.Pairwise (fun p q => keyCmp p.k q.k = .lt))
    {p : KVPair} (hp : p ∈ b.content) : b.get p.k = some p.v := by
  obtain ⟨j, hj, hjp⟩ := List.mem_iff_getElem.mp hp
  have hfind := (bsGo_correct hs (b.content.length + 1) 0 b.content.length
      (Nat.le_refl _) (by omega)).1
    ⟨j, Nat.zero_le _, hj, by rw [List.getD_eq_getElem b.content _ hj, hjp]⟩
  obtain ⟨i, hbs, hilen, hik⟩ := hfind
  have hmem : b.content.getD i ⟨[], []⟩ ∈ b.content := by
    rw [List.getD_eq_getElem b.content _ hilen]
    exact List.getElem_mem hilen
  have heq : b.content.getD i ⟨[], []⟩ = p := pairwise_pk_inj hs hmem hp hik
  have hip : b.content[i] = p := by
    rw [← List.getD_eq_getElem b.content ⟨[], []⟩ hilen]
    exact heq
  unfold Block.get
  rw [hbs]
  dsimp only
  rw [List.get?_eq_getElem?, List.getElem?_eq_getElem hilen, hip]
  rfl

/-- `Block::get` misses on sorted content free of the key. -/
theorem block_get_none {b : Block} {key : List Nat}
    (hs : b.content.Pairwise (fun p q => keyCmp p.k q.k = .lt))
    (hnot : ∀ q ∈ b.content, q.k ≠ key) : b.get key = none := by
  have hnone := (bsGo_correct hs (b.content.length + 1) 0 b.content.length
      (Nat.le_refl _) (by omega)).2
    (fun j _ hj => by
      rw [List.getD_eq_getElem b.content _ hj]
      exact hnot _ (List.getElem_mem hj))
  unfold Block.get
  rw [hnone]

/-! ## Claim C3: flush/read round trip — structure of the written file -/

theorem lookupKey_some_mem {l : List KVPair} {k v : List Nat}
    (h : lookupKey l k = some v) : (⟨k, v⟩ : KVPair) ∈ l := by
  induction l with
  | nil => cases h
  | cons p ps ih =>
    unfold lookupKey at h
    by_cases hk : p.k = k
    · rw [if_pos hk] at h
      cases h
      cases p
      subst hk
      exact List.mem_cons_self _ _
    · rw [if_neg hk] at h
      exact List.mem_cons_of_mem _ (ih h)

theorem lookupKey_none_iff {l : List KVPair} {k : List Nat} :
    lookupKey l k = none ↔ ∀ p ∈ l, p.k ≠ k := by
  induction l with
  | nil => simp [lookupKey]
  | cons p ps ih =>
    unfold lookupKey
    by_cases hk : p.k = k
    · simp [hk]
    · simp only [if_neg hk, ih]
      constructor
      · intro h q hq
        rcases List.mem_cons.mp hq with h' | h'
        · subst h'; exact hk
        · exact h q h'
      · intro h q hq
        exact h q (List.mem_cons_of_mem _ hq)

/-- The packer emits the memtable's pairs, in order, as the concatenation of
the blocks' contents. -/
theorem blocksGo_flatten (bsize : Nat) (cur : Block) (l : List KVPair) :
    ((blocksGo bsize cur l).map Block.content).flatten = cur.content ++ l := by
  induction l generalizing cur with
  | nil => simp [blocksGo]
  | cons p ps ih =>
    simp only [blocksGo]
    by_cases h : bsize < cur.len + p.len
    · rw [if_pos h]
      simp only [List.map_cons, List.flatten_cons, ih]
      simp [Block.new, Block.insert]
    · rw [if_neg h, ih]
      simp [Block.insert]

/-- Specification view of the `serialize_memtable` fold: the (index entry,
block) pairs written for the blocks that have a first key, with the running
offset. -/
def packBlocks : List Block → Nat → List (IndexEntry × Block)
  | [], _ => []
  | b :: bs, off =>
    match b.first_key with
    | none => packBlocks bs off
    | some k => (⟨k, off⟩, b) :: packBlocks bs (off + (encBlock b).length)

/-- The data bytes a pack writes. -/
def packBytes (l : List (IndexEntry × Block)) : List Nat :=
  (l.map (fun x => encBlock x.2)).flatten

/-- The fold inside `serialize_memtable` computes exactly the pack. -/
theorem serialize_foldl_eq (blocks : List Block) (ib : IndexBlock) (off : Nat)
    (bytes : List Nat) :
    blocks.foldl
      (fun acc b => match b.first_key with
        | some k => (acc.1.insert k acc.2.1,
                     acc.2.1 + (encBlock b).length,
                     acc.2.2 ++ encBlock b)
        | none => acc) (ib, off, bytes)
    = (⟨ib.content ++ (packBlocks blocks off).map Prod.fst⟩,
       off + (packBytes (packBlocks blocks off)).length,
       bytes ++ packBytes (packBlocks blocks off)) := by
  induction blocks generalizing ib off bytes with
  | nil => simp [packBlocks, packBytes]
  | cons b bs ih =>
    simp only [List.foldl_cons, packBlocks]
    cases hfk : b.first_key with
    | none =>
      dsimp only
      exact ih ib off bytes
    | some k =>
      dsimp only
      rw [ih]
      simp only [IndexBlock.insert, packBytes, List.map_cons, List.flatten_cons,
        List.length_append, List.append_assoc, List.cons_append, List.nil_append,
        Nat.add_assoc]

/-- `serialize_memtable` written through the pack: the block bytes, then the
index block, then the 8-byte trailer holding the index's serialized size. -/
theorem serialize_memtable_eq (m : Memtable) :
    serialize_memtable m
      = packBytes (packBlocks m.to_blocks 0)
        ++ encIndexBlock ⟨(packBlocks m.to_blocks 0).map Prod.fst⟩
        ++ enc64 (encIndexBlock ⟨(packBlocks m.to_blocks 0).map Prod.fst⟩).length := by
  unfold serialize_memtable
  dsimp only
  rw [serialize_foldl_eq]
  simp [IndexBlock.new]

theorem encBlock_length (b : Block) :
    (encBlock b).length = 16 + ((b.content.map encKVPair).flatten).length := by
  simp [encBlock, enc64_length]
  ring

theorem first_key_cons {b : Block} {k : List Nat} (h : b.first_key = some k) :
    ∃ p ps, b.content = p :: ps ∧ p.k = k := by
  unfold Block.first_key at h
  cases hc : b.content with
  | nil => rw [hc] at h; cases h
  | cons p ps =>
    rw [hc] at h
    simp only [List.head?_cons, Option.map_some'] at h
    exact ⟨p, ps, rfl, Option.some.inj h⟩

/-- The block's first key is `≤` every key in its (sorted) content. -/
theorem first_key_le {b : Block} {k : List Nat} (h : b.first_key = some k)
    (hs : b.content.Pairwise (fun p q => keyCmp p.k q.k = .lt)) :
    ∀ q ∈ b.content, keyCmp k q.k ≠ .gt := by
  obtain ⟨p, ps, hc, hk⟩ := first_key_cons h
  intro q hq
  rw [hc] at hq hs
  rcases List.mem_cons.mp hq with h' | h'
  · subst h'
    subst hk
    rw [keyCmp_refl]
    intro hcon; cases hcon
  · have := List.rel_of_pairwise_cons hs h'
    subst hk
    rw [this]
    intro hcon; cases hcon

theorem packBlocks_key {bs : List Block} {off : Nat} :
    ∀ x ∈ packBlocks bs off, x.2.first_key = some x.1.key := by
  induction bs generalizing off with
  | nil => intro x hx; cases hx
  | cons b bs ih =>
    intro x hx
    unfold packBlocks at hx
    cases hfk : b.first_key with
    | none =>
      rw [hfk] at hx
      exact ih x hx
    | some k =>
      rw [hfk] at hx
      rcases List.mem_cons.mp hx with hx' | hx'
      · subst hx'
        exact hfk
      · exact ih x hx'

theorem packBlocks_snd_sublist (bs : List Block) (off : Nat) :
    ((packBlocks bs off).map Prod.snd).Sublist bs := by
  induction bs generalizing off with
  | nil => simp [packBlocks]
  | cons b bs ih =>
    unfold packBlocks
    cases hfk : b.first_key with
    | none => exact (ih off).cons b
    | some k =>
      simp only [List.map_cons]
      exact (ih _).cons₂ b

theorem packBlocks_snd_mem {bs : List Block} {off : Nat} {x : IndexEntry × Block}
    (hx : x ∈ packBlocks bs off) : x.2 ∈ bs :=
  (packBlocks_snd_sublist bs off).mem (List.mem_map_of_mem Prod.snd hx)

/-- Every block with a first key is packed, with that key in its entry. -/
theorem packBlocks_mem_of {bs : List Block} {b : Block} (hb : b ∈ bs)
    {fk : List Nat} (hfk : b.first_key = some fk) (off : Nat) :
    ∃ e, (e, b) ∈ packBlocks bs off ∧ e.key = fk := by
  induction bs generalizing off with
  | nil => cases hb
  | cons b0 bs ih =>
    unfold packBlocks
    rcases List.mem_cons.mp hb with hb' | hb'
    · subst hb'
      rw [hfk]
      exact ⟨⟨fk, off⟩, List.mem_cons_self _ _, rfl⟩
    · cases hfk0 : b0.first_key with
      | none => exact ih hb' off
      | some k0 =>
        obtain ⟨e, he, hek⟩ := ih hb' (off + (encBlock b0).length)
        exact ⟨e, List.mem_cons_of_mem _ he, hek⟩

/-- Every packed entry's offset points at its block's encoding inside the
pack's data bytes. -/
theorem packBlocks_drop {bs : List Block} {off : Nat} :
    ∀ x ∈ packBlocks bs off,
      off ≤ x.1.off ∧
      ∃ tail, (packBytes (packBlocks bs off)).drop (x.1.off - off)
          = encBlock x.2 ++ tail := by
  induction bs generalizing off with
  | nil => intro x hx; cases hx
  | cons b bs ih =>
    intro x hx
    unfold packBlocks at hx ⊢
    cases hfk : b.first_key with
    | none =>
      rw [hfk] at hx
      exact ih x hx
    | some k =>
      rw [hfk] at hx
      rcases List.mem_cons.mp hx with hx' | hx'
      · subst hx'
        refine ⟨Nat.le_refl _, packBytes (packBlocks bs (off + (encBlock b).length)), ?_⟩
        simp [packBytes]
      · obtain ⟨hle, tail, hdrop⟩ := ih x hx'
        have hle' : off + (encBlock b).length ≤ x.1.off := hle
        refine ⟨by omega, tail, ?_⟩
        simp only [packBytes, List.map_cons, List.flatten_cons]
        rw [List.drop_append_eq_append_drop]
        have h1 : (encBlock b).length ≤ x.1.off - off := by omega
        rw [List.drop_of_length_le h1]
        have h2 : x.1.off - off - (encBlock b).length
            = x.1.off - (off + (encBlock b).length) := by omega
        rw [h2, List.nil_append]
        exact hdrop

/-- The packed entries' keys are strictly ascending when the blocks' contents
are cross-sorted. -/
theorem packBlocks_entries_sorted {bs : List Block} {off : Nat}
    (hcross : bs.Pairwise
      (fun b1 b2 => ∀ x ∈ b1.content, ∀ y ∈ b2.content, keyCmp x.k y.k = .lt)) :
    ((packBlocks bs off).map Prod.fst).Pairwise
      (fun e1 e2 => keyCmp e1.key e2.key = .lt) := by
  induction bs generalizing off with
  | nil => simp [packBlocks]
  | cons b bs ih =>
    have hcr : ∀ b2 ∈ bs, ∀ x ∈ b.content, ∀ y ∈ b2.content, keyCmp x.k y.k = .lt :=
      fun b2 h2 => List.rel_of_pairwise_cons hcross h2
    unfold packBlocks
    cases hfk : b.first_key with
    | none => exact ih (List.Pairwise.of_cons hcross)
    | some k =>
      simp only [List.map_cons]
      refine List.Pairwise.cons ?_ (ih (List.Pairwise.of_cons hcross))
      intro e2 he2
      obtain ⟨x2, hx2, hx2e⟩ := List.mem_map.mp he2
      have hb2 : x2.2 ∈ bs := packBlocks_snd_mem hx2
      have hk2 : x2.2.first_key = some x2.1.key := packBlocks_key x2 hx2
      obtain ⟨p, ps, hc, hpk⟩ := first_key_cons hfk
      obtain ⟨p2, ps2, hc2, hpk2⟩ := first_key_cons hk2
      have := hcr x2.2 hb2 p (by rw [hc]; exact List.mem_cons_self _ _)
        p2 (by rw [hc2]; exact List.mem_cons_self _ _)
      rw [hpk, hpk2] at this
      rw [← hx2e]
      dsimp only
      exact this

/-- Every block the packer emits keeps `len` equal to the sum of its
records' lengths (the `insert` accounting). -/
theorem blocksGo_lenOk (bsize : Nat) (cur : Block) (l : List KVPair)
    (hcur : cur.len = (cur.content.map KVPair.len).sum) :
    ∀ b ∈ blocksGo bsize cur l, b.len = (b.content.map KVPair.len).sum := by
  induction l generalizing cur with
  | nil =>
    intro b hb
    simp only [blocksGo, List.mem_singleton] at hb
    subst hb; exact hcur
  | cons p ps ih =>
    intro b hb
    simp only [blocksGo] at hb
    by_cases h : bsize < cur.len + p.len
    · rw [if_pos h] at hb
      rcases List.mem_cons.mp hb with h' | h'
      · subst h'; exact hcur
      · refine ih _ ?_ b h'
        simp [Block.new, Block.insert]
    · rw [if_neg h] at hb
      refine ih _ ?_ b hb
      simp [Block.insert, hcur]

/-- A member list's mapped sum is at most the flattened list's mapped sum. -/
theorem sum_map_le_of_mem_flatten {L : List (List KVPair)} {c : List KVPair}
    (hc : c ∈ L) (f : KVPair → Nat) :
    (c.map f).sum ≤ (L.flatten.map f).sum := by
  rw [List.map_flatten f L, List.sum_flatten]
  have h1 : List.map f c ∈ L.map (List.map f) := List.mem_map_of_mem _ hc
  have h2 : (List.map f c).sum ∈ (L.map (List.map f)).map List.sum :=
    List.mem_map_of_mem _ h1
  exact List.single_le_sum (fun a _ => Nat.zero_le a) _ h2

/-- A member list's length is at most the flattened list's length. -/
theorem length_le_of_mem_flatten {L : List (List KVPair)} {c : List KVPair}
    (hc : c ∈ L) : c.length ≤ L.flatten.length := by
  rw [List.length_flatten]
  exact List.single_le_sum (fun a _ => Nat.zero_le a) _
    (List.mem_map_of_mem List.length hc)

/-- `IndexBlock::from_file` on a file laid out as data bytes, then the
serialized index block, then the trailer holding the index's size, recovers
the index block: the two seeks land exactly on the trailer and the index. -/
theorem IndexBlock_from_file_append (B : List Nat) (idx : IndexBlock)
    (hsz : (encIndexBlock idx).length < 2 ^ 63)
    (hcnt : idx.content.length < 2 ^ 64)
    (hes : ∀ e ∈ idx.content, e.key.length < 2 ^ 64 ∧ e.off < 2 ^ 64) :
    IndexBlock.from_file
        (B ++ (encIndexBlock idx ++ enc64 (encIndexBlock idx).length))
      = some idx := by
  set I := encIndexBlock idx with hI
  set isz := I.length with hisz
  have hT : (enc64 isz).length = 8 := enc64_length isz
  have hlen : (B ++ (I ++ enc64 isz)).length = B.length + (isz + 8) := by
    simp [hT]
  have h8 : 8 ≤ (B ++ (I ++ enc64 isz)).length := by
    rw [hlen]; omega
  have hpos1 : (B ++ (I ++ enc64 isz)).length - 8 = B.length + isz := by
    rw [hlen]
    omega
  have hdrop1 : (B ++ (I ++ enc64 isz)).drop (B.length + isz) = enc64 isz := by
    rw [← List.append_assoc]
    have hBI : (B ++ I).length = B.length + isz := by simp [hisz]
    rw [← hBI]
    exact List.drop_left _ _
  have hdec1 : dec64 (enc64 isz) = some (isz, []) := by
    have h := dec64_enc64_small ([] : List Nat) (show isz < 2 ^ 64 by
      have : (2:Nat) ^ 63 < 2 ^ 64 := by norm_num
      omega)
    simpa using h
  have hdrop2 : (B ++ (I ++ enc64 isz)).drop B.length = I ++ enc64 isz :=
    List.drop_left _ _
  have hdec2 : decIndexBlock (I ++ enc64 isz) = some (idx, enc64 isz) :=
    decIndexBlock_encIndexBlock _ hcnt hes
  unfold IndexBlock.from_file
  dsimp only
  rw [if_pos h8, hpos1, hdrop1, hdec1]
  dsimp only
  rw [if_pos hsz]
  have htgt : ((B ++ (I ++ enc64 isz)).length : Int) - (8 + (isz : Int)) = (B.length : Int) := by
    rw [hlen]; push_cast; ring
  rw [htgt, if_pos (Int.natCast_nonneg B.length), Int.toNat_natCast, hdrop2, hdec2]

theorem blocksGo_count (bsize : Nat) (cur : Block) (l : List KVPair) :
    (blocksGo bsize cur l).length ≤ l.length + 1 := by
  induction l generalizing cur with
  | nil => simp [blocksGo]
  | cons p ps ih =>
    simp only [blocksGo]
    by_cases h : bsize < cur.len + p.len
    · rw [if_pos h]
      simp only [List.length_cons]
      have := ih (Block.new.insert p)
      omega
    · rw [if_neg h]
      have := ih (cur.insert p)
      simp only [List.length_cons]
      omega

/-- Reading the file written by `serialize_memtable` for a sorted, bounded
memtable: the index block is recovered intact, and the index-directed block
lookup returns each stored pair's value and misses every absent key. -/
theorem serialized_read (m : Memtable)
    (hs : m.table.Pairwise (fun p q => keyCmp p.k q.k = .lt))
    (hps : ∀ p ∈ m.table, p.k.length < 2 ^ 64 ∧ p.v.length < 2 ^ 64)
    (hcnt : m.table.length < 2 ^ 63)
    (hsum : (m.table.map KVPair.len).sum < 2 ^ 64)
    (hsz : (serialize_memtable m).length < 2 ^ 63) :
    IndexBlock.from_file (serialize_memtable m)
        = some ⟨(packBlocks m.to_blocks 0).map Prod.fst⟩
    ∧ (∀ p ∈ m.table,
        sstLookup (serialize_memtable m) ⟨(packBlocks m.to_blocks 0).map Prod.fst⟩ p.k
          = .ok p.v)
    ∧ (∀ k, lookupKey m.table k = none →
        sstLookup (serialize_memtable m) ⟨(packBlocks m.to_blocks 0).map Prod.fst⟩ k
          = .err .notFound) := by
  have hp63 : (2 : Nat) ^ 63 < 2 ^ 64 := by norm_num
  set blocks := m.to_blocks with hblocks
  set pack := packBlocks blocks 0 with hpackdef
  set entries := pack.map Prod.fst with hentriesdef
  set B := packBytes pack with hBdef
  have hser : serialize_memtable m
      = B ++ (encIndexBlock ⟨entries⟩ ++ enc64 (encIndexBlock ⟨entries⟩).length) := by
    rw [serialize_memtable_eq m, List.append_assoc]
  have hlens : (serialize_memtable m).length
      = B.length + ((encIndexBlock ⟨entries⟩).length + 8) := by
    rw [hser]
    simp [enc64_length]
  have hflat : (blocks.map Block.content).flatten = m.table := by
    rw [hblocks]
    unfold Memtable.to_blocks
    rw [blocksGo_flatten]
    rfl
  have hpf : ((blocks.map Block.content).flatten).Pairwise
      (fun p q => keyCmp p.k q.k = .lt) := by
    rw [hflat]; exact hs
  have hpw := List.pairwise_flatten.mp hpf
  have heach : ∀ b ∈ blocks, b.content.Pairwise (fun p q => keyCmp p.k q.k = .lt) :=
    fun b hb => hpw.1 _ (List.mem_map_of_mem _ hb)
  have hcross : blocks.Pairwise
      (fun b1 b2 => ∀ x ∈ b1.content, ∀ y ∈ b2.content, keyCmp x.k y.k = .lt) :=
    List.pairwise_map.mp hpw.2
  have hesorted : entries.Pairwise (fun e1 e2 => keyCmp e1.key e2.key = .lt) :=
    packBlocks_entries_sorted hcross
  have hpackpw : pack.Pairwise
      (fun x y => ∀ q ∈ x.2.content, ∀ r ∈ y.2.content, keyCmp q.k r.k = .lt) :=
    List.pairwise_map.mp
      (List.Pairwise.sublist (packBlocks_snd_sublist blocks 0) hcross)
  have hsub : ∀ x ∈ pack, ∀ q ∈ x.2.content, q ∈ m.table := by
    intro x hx q hq
    rw [← hflat]
    exact List.mem_flatten.mpr
      ⟨x.2.content, List.mem_map_of_mem _ (packBlocks_snd_mem hx), hq⟩
  have hlenOk : ∀ b ∈ blocks, b.len = (b.content.map KVPair.len).sum := by
    rw [hblocks]
    unfold Memtable.to_blocks
    exact blocksGo_lenOk _ _ _ (by simp [Block.new])
  have hblen : ∀ x ∈ pack, x.2.len < 2 ^ 64 := by
    intro x hx
    have hb := packBlocks_snd_mem hx
    rw [hlenOk _ hb]
    have hle := sum_map_le_of_mem_flatten (List.mem_map_of_mem Block.content hb) KVPair.len
    rw [hflat] at hle
    omega
  have hbcnt : ∀ x ∈ pack, x.2.content.length < 2 ^ 64 := by
    intro x hx
    have hle := length_le_of_mem_flatten
      (List.mem_map_of_mem Block.content (packBlocks_snd_mem hx))
    rw [hflat] at hle
    omega
  have hbps : ∀ x ∈ pack, ∀ p ∈ x.2.content, p.k.length < 2 ^ 64 ∧ p.v.length < 2 ^ 64 :=
    fun x hx p hp => hps p (hsub x hx p hp)
  have hoffB : ∀ x ∈ pack, x.1.off < B.length ∧
      ∃ tail, B.drop x.1.off = encBlock x.2 ++ tail := by
    intro x hx
    obtain ⟨h0, tail, hdrop⟩ := packBlocks_drop x hx
    rw [Nat.sub_zero] at hdrop
    have hlen1 : B.length - x.1.off = (encBlock x.2).length + tail.length := by
      have hcg := congrArg List.length hdrop
      simpa [List.length_drop] using hcg
    have henc : 16 ≤ (encBlock x.2).length := by
      rw [encBlock_length]; omega
    exact ⟨by omega, tail, hdrop⟩
  have hklen : ∀ e ∈ entries, e.key.length < 2 ^ 64 ∧ e.off < 2 ^ 64 := by
    intro e he
    obtain ⟨x, hx, hxe⟩ := List.mem_map.mp he
    constructor
    · have hk := packBlocks_key x hx
      obtain ⟨p, ps, hc, hpk⟩ := first_key_cons hk
      have hpmem : p ∈ x.2.content := by
        rw [hc]; exact List.mem_cons_self _ _
      have hb := (hps p (hsub x hx p hpmem)).1
      rw [← hxe, ← hpk]
      exact hb
    · have hoff := (hoffB x hx).1
      rw [← hxe]
      omega
  have hentcnt : entries.length < 2 ^ 64 := by
    have h1 : pack.length ≤ blocks.length := by
      have hsl := (packBlocks_snd_sublist blocks 0).length_le
      simpa using hsl
    have h2 : blocks.length ≤ m.table.length + 1 := by
      rw [hblocks]; unfold Memtable.to_blocks; exact blocksGo_count _ _ _
    have h3 : entries.length = pack.length := by simp [hentriesdef]
    omega
  have hIsz : (encIndexBlock ⟨entries⟩).length < 2 ^ 63 := by omega
  have hff : IndexBlock.from_file (serialize_memtable m) = some ⟨entries⟩ := by
    rw [hser]
    exact IndexBlock_from_file_append B ⟨entries⟩ hIsz hentcnt hklen
  have hbdec : ∀ x ∈ pack, Block.from_file (serialize_memtable m) x.1.off = some x.2 := by
    intro x hx
    obtain ⟨hofflt, tail, hdrop⟩ := hoffB x hx
    have hfdrop : (serialize_memtable m).drop x.1.off
        = encBlock x.2
          ++ (tail ++ (encIndexBlock ⟨entries⟩ ++ enc64 (encIndexBlock ⟨entries⟩).length)) := by
      rw [hser, List.drop_append_eq_append_drop, hdrop]
      rw [show x.1.off - B.length = 0 by omega, List.drop_zero, List.append_assoc]
    unfold Block.from_file
    rw [hfdrop, decBlock_encBlock _ (hblen x hx) (hbcnt x hx) (hbps x hx)]
  refine ⟨hff, ?_, ?_⟩
  · intro p hp
    have hpflat : p ∈ (blocks.map Block.content).flatten := by
      rw [hflat]; exact hp
    obtain ⟨c, hcmem, hpc⟩ := List.mem_flatten.mp hpflat
    obtain ⟨b, hbmem, hbc⟩ := List.mem_map.mp hcmem
    rw [← hbc] at hpc
    have hfk : ∃ fk, b.first_key = some fk := by
      cases hc : b.content with
      | nil => rw [hc] at hpc; cases hpc
      | cons q qs =>
        refine ⟨q.k, ?_⟩
        unfold Block.first_key
        rw [hc]
        rfl
    obtain ⟨fk, hfk⟩ := hfk
    obtain ⟨eb, hebmem, hebk⟩ := packBlocks_mem_of hbmem hfk 0
    have hebent : eb ∈ entries := List.mem_map_of_mem Prod.fst hebmem
    have hqual : keyCmp eb.key p.k ≠ .gt := by
      rw [hebk]
      exact first_key_le hfk (heach b hbmem) p hpc
    cases hgof : IndexBlock.get_offset_for ⟨entries⟩ p.k with
    | none =>
      have hall := ((gof_spec entries p.k hesorted).1.mp hgof) eb hebent
      rcases keyCmp_ne_gt_iff.mp hqual with hlt | heq
      · exact absurd rfl (keyCmp_lt_ne (keyCmp_lt_trans hall hlt))
      · rw [heq] at hall
        exact absurd rfl (keyCmp_lt_ne hall)
    | some o =>
      obtain ⟨e', he'mem, he'off, he'le, he'max⟩ :=
        (gof_spec entries p.k hesorted).2 o hgof
      obtain ⟨x', hx'mem, hx'e⟩ := List.mem_map.mp he'mem
      have hk' := packBlocks_key x' hx'mem
      obtain ⟨p', ps', hc', hpk'⟩ := first_key_cons hk'
      have hp'mem : p' ∈ x'.2.content := by
        rw [hc']; exact List.mem_cons_self _ _
      rcases mem_pairwise_cases hpackpw hx'mem hebmem with hxeq | hlt1 | hlt2
      · have hoff : x'.1.off = o := by rw [hx'e]; exact he'off
        have hpx : p ∈ x'.2.content := by rw [hxeq]; exact hpc
        simp only [sstLookup, hgof, ← hoff, hbdec x' hx'mem,
          block_get_found (heach x'.2 (packBlocks_snd_mem hx'mem)) hpx]
      · exfalso
        obtain ⟨pb, psb, hcb, hpkb⟩ := first_key_cons hfk
        have hpbmem : pb ∈ b.content := by
          rw [hcb]; exact List.mem_cons_self _ _
        have hltk := hlt1 p' hp'mem pb hpbmem
        rw [hpk', hx'e, hpkb, ← hebk] at hltk
        have hle := he'max eb hebent hqual
        have hcon := keyCmp_lt_of_lt_of_le hltk hle
        exact absurd rfl (keyCmp_lt_ne hcon)
      · exfalso
        have hltk := hlt2 p hpc p' hp'mem
        rw [hpk', hx'e] at hltk
        have := keyCmp_lt_of_lt_of_le hltk he'le
        exact absurd rfl (keyCmp_lt_ne this)
  · intro k hk
    have hknot : ∀ p ∈ m.table, p.k ≠ k := lookupKey_none_iff.mp hk
    cases hgof : IndexBlock.get_offset_for ⟨entries⟩ k with
    | none => simp only [sstLookup, hgof]
    | some o =>
      obtain ⟨e', he'mem, he'off, he'le, _⟩ := (gof_spec entries k hesorted).2 o hgof
      obtain ⟨x', hx'mem, hx'e⟩ := List.mem_map.mp he'mem
      have hoff : x'.1.off = o := by rw [hx'e]; exact he'off
      have hnone : x'.2.get k = none :=
        block_get_none (heach x'.2 (packBlocks_snd_mem hx'mem))
          (fun q hq => hknot q (hsub x' hx'mem q hq))
      simp only [sstLookup, hgof, ← hoff, hbdec x' hx'mem, hnone]

/-- A fresh SSTable handle over a path holding content `F`: `get` opens the
file, loads the index via `from_file`, and runs the index-directed
lookup. -/
theorem sst_get_opens_and_loads {nm : String} {fs : List (String × List Nat)}
    {F : List Nat} {idx : IndexBlock} (k : List Nat)
    (hfs : fsGet fs nm = some F) (hff : IndexBlock.from_file F = some idx) :
    ((SSTable.new nm).get fs k).2 = sstLookup F idx k := by
  unfold SSTable.new SSTable.get
  dsimp only
  rw [hfs]
  dsimp only
  rw [hff]

/-- Claim C3: writing a non-empty (sorted, bounded) memtable with
`serialize_memtable` to an SSTable file and reading that file back through
`SSTable::get` returns, for each key in the memtable, its stored value, and
`NotFound` for every key the memtable does not hold. -/
theorem claim3_sstable_round_trip (m : Memtable) (nm : String)
    (fs : List (String × List Nat))
    (hfs : fsGet fs nm = some (serialize_memtable m))
    (hne : m.table ≠ [])
    (hs : m.table.Pairwise (fun p q => keyCmp p.k q.k = .lt))
    (hps : ∀ p ∈ m.table, p.k.length < 2 ^ 64 ∧ p.v.length < 2 ^ 64)
    (hcnt : m.table.length < 2 ^ 63)
    (hsum : (m.table.map KVPair.len).sum < 2 ^ 64)
    (hsz : (serialize_memtable m).length < 2 ^ 63) :
    (∀ p ∈ m.table, ((SSTable.new nm).get fs p.k).2 = .ok p.v)
    ∧ (∀ k, lookupKey m.table k = none →
      ((SSTable.new nm).get fs k).2 = .err .notFound) := by
  obtain ⟨hff, hfound, hmiss⟩ := serialized_read m hs hps hcnt hsum hsz
  constructor
  · intro p hp
    rw [sst_get_opens_and_loads p.k hfs hff]
    exact hfound p hp
  · intro k hk
    rw [sst_get_opens_and_loads k hfs hff]
    exact hmiss k hk

/-- Three-pair memtable whose `block_size` of 4 splits it into several
blocks. -/
def mtC3 : Memtable := ⟨[⟨[97], [49]⟩, ⟨[98], [50, 51]⟩, ⟨[99], [52]⟩], 7, 4⟩

/-- Witness for C3 at a concrete memtable, its file on a one-entry disk. -/
theorem claim3_sstable_round_trip_witness :
    (fsGet [("t.db", serialize_memtable mtC3)] "t.db"
        = some (serialize_memtable mtC3)
      ∧ mtC3.table ≠ []
      ∧ mtC3.table.Pairwise (fun p q => keyCmp p.k q.k = .lt)
      ∧ (∀ p ∈ mtC3.table, p.k.length < 2 ^ 64 ∧ p.v.length < 2 ^ 64)
      ∧ mtC3.table.length < 2 ^ 63
      ∧ (mtC3.table.map KVPair.len).sum < 2 ^ 64
      ∧ (serialize_memtable mtC3).length < 2 ^ 63)
    ∧ ((∀ p ∈ mtC3.table,
        ((SSTable.new "t.db").get [("t.db", serialize_memtable mtC3)] p.k).2
          = .ok p.v)
      ∧ (∀ k, lookupKey mtC3.table k = none →
        ((SSTable.new "t.db").get [("t.db", serialize_memtable mtC3)] k).2
          = .err .notFound)) :=
  ⟨⟨by decide, by decide, by decide, by decide, by decide, by decide, by decide⟩,
   claim3_sstable_round_trip mtC3 "t.db" [("t.db", serialize_memtable mtC3)]
     (by decide) (by decide) (by decide) (by decide) (by decide) (by decide)
     (by decide)⟩

/-! ## Claim C2: last-write-wins across the flush configurations -/

/-- Writing a path and reading it back observes the written bytes
(`File::create` truncates in place, later opens see the new content). -/
theorem fsGet_fsSet (fs : List (String × List Nat)) (nm : String) (c : List Nat) :
    fsGet (fsSet fs nm c) nm = some c := by
  induction fs with
  | nil => simp [fsSet, fsGet]
  | cons e rest ih =>
    obtain ⟨n, c0⟩ := e
    unfold fsSet
    by_cases h : n = nm
    · rw [if_pos h]
      simp [fsGet]
    · rw [if_neg h]
      unfold fsGet
      rw [if_neg h]
      exact ih

/-- `BTreeMap::insert` overwrites: two inserts of the same key leave the
second value. -/
theorem insertPair_overwrite (k v1 v2 : List Nat) :
    insertPair (insertPair [] k v1) k v2 = [⟨k, v2⟩] := by
  simp [insertPair, keyCmp_refl]

theorem lookupKey_single_hit (k v : List Nat) : lookupKey [⟨k, v⟩] k = some v := by
  simp [lookupKey]

theorem lookupKey_single_miss {xk k : List Nat} (w : List Nat) (h : xk ≠ k) :
    lookupKey [⟨xk, w⟩] k = none := by
  simp [lookupKey, h]

/-- A memtable hit short-circuits `Database::get`. -/
theorem get_memtable_hit (db : Database) (k v : List Nat)
    (h : lookupKey db.memtable.table k = some v) : (db.get k).2 = .ok v := by
  unfold Database.get
  rw [h]

/-- When the threshold is exceeded and all I/O succeeds, `set` appends to
the WAL, overwrites the shared SSTable path with the serialized memtable,
pushes a handle on that path, and starts a fresh memtable holding only the
new pair. -/
theorem set_flush (db : Database) (k v : List Nat)
    (h : db.conf.memtable_size < db.memtable.len + (k.length + v.length)) :
    (db.set k v true true true).1
      = { db with
          logfile := db.logfile.record k v true,
          fs := fsSet db.fs (db.conf.name ++ ".db") (serialize_memtable db.memtable),
          sstables := db.sstables ++ [SSTable.new (db.conf.name ++ ".db")],
          memtable := (Memtable.new db.conf.block_size).insert k v } := by
  unfold Database.set
  dsimp only
  rw [if_pos h]
  rfl

/-- Length of the file serialized from a one-pair memtable (one data block,
one index entry, the trailer). -/
theorem serialize_singleton_length (m : Memtable) (p : KVPair)
    (h : m.table = [p]) :
    (serialize_memtable m).length = 64 + 2 * p.k.length + p.v.length := by
  have hpack : packBlocks m.to_blocks 0 = [(⟨p.k, 0⟩, ⟨p.len, [p]⟩)] := by
    unfold Memtable.to_blocks
    rw [h]
    simp only [blocksGo]
    by_cases hc : m.block_size < Block.new.len + p.len
    · rw [if_pos hc]
      simp [packBlocks, Block.first_key, Block.new, Block.insert]
    · rw [if_neg hc]
      simp [packBlocks, Block.first_key, Block.new, Block.insert]
  rw [serialize_memtable_eq, hpack]
  simp only [packBytes, List.map_cons, List.map_nil, List.flatten_cons,
    List.flatten_nil, List.append_nil, List.length_append, encBlock_length,
    encIndexBlock, encIndexEntry, encBytes_length, enc64_length,
    encKVPair_length, List.length_cons, List.length_nil]
  omega

/-- Claim C2 (last-write-wins): after `set(k, v1); set(k, v2)`, both
successful, `get k` returns `v2` in each flush configuration the claim
names: no flush (`ms1` holds both records), a flush between the two sets
(`ms2` admits the first record, so the second `set` flushes before its
insert), and a flush after each set (`memtable_size = 0`; the flush that
follows `set(k, v2)` is performed by a third `set` of an unrelated key,
since the source flushes only at the start of a `set`).  In the last
configuration the value is read back through the full SSTable path from the
shared file `<nm>.db`, which holds the newest flush's bytes. -/
theorem claim2_last_write_wins
    (nm : String) (bs : Nat) (k v1 v2 xk w : List Nat) (ms1 ms2 : Nat)
    (hk : 0 < k.length) (hxk : xk ≠ k)
    (hkb : k.length < 2 ^ 64) (hv2b : v2.length < 2 ^ 64)
    (hsmall : k.length + v2.length < 2 ^ 61)
    (h1 : k.length + v1.length + (k.length + v2.length) ≤ ms1)
    (h2a : k.length + v1.length ≤ ms2)
    (h2b : ms2 < k.length + v1.length + (k.length + v2.length)) :
    ((((Database.new ⟨ms1, bs, nm⟩).set k v1 true true true).1.set
        k v2 true true true).1.get k).2 = .ok v2
    ∧ ((((Database.new ⟨ms2, bs, nm⟩).set k v1 true true true).1.set
        k v2 true true true).1.get k).2 = .ok v2
    ∧ (((((Database.new ⟨0, bs, nm⟩).set k v1 true true true).1.set
        k v2 true true true).1.set xk w true true true).1.get k).2 = .ok v2 := by
  refine ⟨?_, ?_, ?_⟩
  · -- no flush: both records stay in the memtable, the second overwrites
    have e1 : ((Database.new ⟨ms1, bs, nm⟩).set k v1 true true true).1
        = { conf := ⟨ms1, bs, nm⟩,
            logfile := (Log.mk []).record k v1 true,
            memtable := (Memtable.new bs).insert k v1,
            sstables := [], fs := [] } := by
      rw [set_no_flush (Database.new ⟨ms1, bs, nm⟩) k v1
        (by show ¬ ms1 < 0 + (k.length + v1.length); omega)]
      rfl
    rw [e1]
    rw [set_no_flush (Database.mk ⟨ms1, bs, nm⟩
        ((Log.mk []).record k v1 true) ((Memtable.new bs).insert k v1) [] []) k v2
      (by show ¬ ms1 < 0 + (k.length + v1.length) + (k.length + v2.length); omega)]
    refine get_memtable_hit _ k v2 ?_
    show lookupKey (insertPair (insertPair [] k v1) k v2) k = some v2
    rw [insertPair_overwrite]
    exact lookupKey_single_hit k v2
  · -- flush between the sets: the memtable afterwards holds only `v2`
    have e1 : ((Database.new ⟨ms2, bs, nm⟩).set k v1 true true true).1
        = { conf := ⟨ms2, bs, nm⟩,
            logfile := (Log.mk []).record k v1 true,
            memtable := (Memtable.new bs).insert k v1,
            sstables := [], fs := [] } := by
      rw [set_no_flush (Database.new ⟨ms2, bs, nm⟩) k v1
        (by show ¬ ms2 < 0 + (k.length + v1.length); omega)]
      rfl
    rw [e1]
    rw [set_flush (Database.mk ⟨ms2, bs, nm⟩
        ((Log.mk []).record k v1 true) ((Memtable.new bs).insert k v1) [] []) k v2
      (by show ms2 < 0 + (k.length + v1.length) + (k.length + v2.length); omega)]
    refine get_memtable_hit _ k v2 ?_
    show lookupKey (insertPair [] k v2) k = some v2
    exact lookupKey_single_hit k v2
  · -- flush after each set: v2 is read back from the shared SSTable file
    have e1 : ((Database.new ⟨0, bs, nm⟩).set k v1 true true true).1
        = { conf := ⟨0, bs, nm⟩,
            logfile := (Log.mk []).record k v1 true,
            memtable := (Memtable.new bs).insert k v1,
            sstables := [SSTable.new (nm ++ ".db")],
            fs := fsSet [] (nm ++ ".db") (serialize_memtable (Memtable.new bs)) } := by
      rw [set_flush (Database.new ⟨0, bs, nm⟩) k v1
        (by show 0 < 0 + (k.length + v1.length); omega)]
      rfl
    rw [e1]
    have e2 : ((Database.mk ⟨0, bs, nm⟩
          ((Log.mk []).record k v1 true)
          ((Memtable.new bs).insert k v1)
          [SSTable.new (nm ++ ".db")]
          (fsSet [] (nm ++ ".db") (serialize_memtable (Memtable.new bs)))).set
          k v2 true true true).1
        = { conf := ⟨0, bs, nm⟩,
            logfile := ((Log.mk []).record k v1 true).record k v2 true,
            memtable := (Memtable.new bs).insert k v2,
            sstables := [SSTable.new (nm ++ ".db"), SSTable.new (nm ++ ".db")],
            fs := fsSet (fsSet [] (nm ++ ".db") (serialize_memtable (Memtable.new bs)))
              (nm ++ ".db") (serialize_memtable ((Memtable.new bs).insert k v1)) } := by
      rw [set_flush (Database.mk ⟨0, bs, nm⟩
          ((Log.mk []).record k v1 true)
          ((Memtable.new bs).insert k v1)
          [SSTable.new (nm ++ ".db")]
          (fsSet [] (nm ++ ".db") (serialize_memtable (Memtable.new bs)))) k v2
        (by show 0 < 0 + (k.length + v1.length) + (k.length + v2.length); omega)]
      rfl
    rw [e2]
    have e3 : ((Database.mk ⟨0, bs, nm⟩
          (((Log.mk []).record k v1 true).record k v2 true)
          ((Memtable.new bs).insert k v2)
          [SSTable.new (nm ++ ".db"), SSTable.new (nm ++ ".db")]
          (fsSet (fsSet [] (nm ++ ".db") (serialize_memtable (Memtable.new bs)))
            (nm ++ ".db") (serialize_memtable ((Memtable.new bs).insert k v1)))).set
          xk w true true true).1
        = { conf := ⟨0, bs, nm⟩,
            logfile := (((Log.mk []).record k v1 true).record k v2 true).record xk w true,
            memtable := (Memtable.new bs).insert xk w,
            sstables := [SSTable.new (nm ++ ".db"), SSTable.new (nm ++ ".db"),
              SSTable.new (nm ++ ".db")],
            fs := fsSet (fsSet (fsSet [] (nm ++ ".db")
                (serialize_memtable (Memtable.new bs)))
              (nm ++ ".db") (serialize_memtable ((Memtable.new bs).insert k v1)))
              (nm ++ ".db") (serialize_memtable ((Memtable.new bs).insert k v2)) } := by
      rw [set_flush (Database.mk ⟨0, bs, nm⟩
          (((Log.mk []).record k v1 true).record k v2 true)
          ((Memtable.new bs).insert k v2)
          [SSTable.new (nm ++ ".db"), SSTable.new (nm ++ ".db")]
          (fsSet (fsSet [] (nm ++ ".db") (serialize_memtable (Memtable.new bs)))
            (nm ++ ".db") (serialize_memtable ((Memtable.new bs).insert k v1)))) xk w
        (by show 0 < 0 + (k.length + v2.length) + (xk.length + w.length); omega)]
      rfl
    rw [e3]
    -- the final memtable misses `k`; the scan reads the newest flush
    have hm2tbl : ((Memtable.new bs).insert k v2).table = [⟨k, v2⟩] := rfl
    obtain ⟨hff, hfound, -⟩ := serialized_read ((Memtable.new bs).insert k v2)
      (by rw [hm2tbl]; simp)
      (by rw [hm2tbl]
          intro p hp
          rw [List.mem_singleton] at hp
          subst hp
          exact ⟨hkb, hv2b⟩)
      (by rw [hm2tbl]; norm_num)
      (by rw [hm2tbl]
          simp only [List.map_cons, List.map_nil, List.sum_cons, List.sum_nil,
            KVPair.len]
          omega)
      (by rw [serialize_singleton_length ((Memtable.new bs).insert k v2) ⟨k, v2⟩ hm2tbl]
          dsimp only
          have hp : (2 : Nat) ^ 61 + 2 ^ 61 + 64 ≤ 2 ^ 63 := by norm_num
          omega)
    have hfs3 : fsGet (fsSet (fsSet (fsSet [] (nm ++ ".db")
          (serialize_memtable (Memtable.new bs)))
        (nm ++ ".db") (serialize_memtable ((Memtable.new bs).insert k v1)))
        (nm ++ ".db") (serialize_memtable ((Memtable.new bs).insert k v2)))
        (nm ++ ".db")
        = some (serialize_memtable ((Memtable.new bs).insert k v2)) :=
      fsGet_fsSet _ _ _
    have hS : ((SSTable.new (nm ++ ".db")).get
        (fsSet (fsSet (fsSet [] (nm ++ ".db")
            (serialize_memtable (Memtable.new bs)))
          (nm ++ ".db") (serialize_memtable ((Memtable.new bs).insert k v1)))
          (nm ++ ".db") (serialize_memtable ((Memtable.new bs).insert k v2))) k).2
        = .ok v2 := by
      rw [sst_get_opens_and_loads k hfs3 hff]
      exact hfound ⟨k, v2⟩ (by rw [hm2tbl]; exact List.mem_singleton.mpr rfl)
    unfold Database.get
    dsimp only
    have hmiss : lookupKey ((Memtable.new bs).insert xk w).table k = none :=
      lookupKey_single_miss w hxk
    rw [hmiss]
    simp only [scanTables, hS]

/-- Witness for C2 at a concrete key, two values, and the three
configurations. -/
theorem claim2_last_write_wins_witness :
    ((0 : Nat) < ([107] : List Nat).length
      ∧ ([120] : List Nat) ≠ [107]
      ∧ ([107] : List Nat).length < 2 ^ 64
      ∧ ([50] : List Nat).length < 2 ^ 64
      ∧ ([107] : List Nat).length + ([50] : List Nat).length < 2 ^ 61
      ∧ ([107] : List Nat).length + ([49] : List Nat).length
          + (([107] : List Nat).length + ([50] : List Nat).length) ≤ 100
      ∧ ([107] : List Nat).length + ([49] : List Nat).length ≤ 2
      ∧ (2 : Nat) < ([107] : List Nat).length + ([49] : List Nat).length
          + (([107] : List Nat).length + ([50] : List Nat).length))
    ∧ (((((Database.new ⟨100, 16, "db"⟩).set [107] [49] true true true).1.set
          [107] [50] true true true).1.get [107]).2 = .ok [50]
      ∧ ((((Database.new ⟨2, 16, "db"⟩).set [107] [49] true true true).1.set
          [107] [50] true true true).1.get [107]).2 = .ok [50]
      ∧ (((((Database.new ⟨0, 16, "db"⟩).set [107] [49] true true true).1.set
          [107] [50] true true true).1.set [120] [53] true true true).1.get
            [107]).2 = .ok [50]) :=
  ⟨⟨by decide, by decide, by decide, by decide, by decide, by decide, by decide,
    by decide⟩,
   claim2_last_write_wins "db" 16 [107] [49] [50] [120] [53] 100 2
     (by decide) (by decide) (by decide) (by decide) (by decide) (by decide)
     (by decide) (by decide)⟩

end Fwdb
